import Mathlib

/-!
Verification of the diagram-text sanitization core of the CMC-Japan
ReverseCode demo application.

Strings are modelled as `List Char` (`Str`). Each JavaScript string routine of
the source is translated into a total Lean function over `Str`; the regex-based
rewrites are translated into explicit character scanners that reproduce the
greedy/lazy matching and backtracking behaviour of the concrete regexes used by
the source. Scanners that restart after a match use an explicit fuel argument
equal to the input length, which is sufficient because every step of the scan
consumes at least one character of input.

Whitespace is modelled as the ASCII whitespace set (space, tab, newline,
vertical tab, form feed, carriage return); `\w` as ASCII `[A-Za-z0-9_]`.
-/

abbrev Str := List Char

/-- ASCII opening square bracket. -/
def obr : Char := Char.ofNat 91

/-- ASCII closing square bracket. -/
def cbr : Char := Char.ofNat 93

/-- ASCII opening parenthesis. -/
def opr : Char := Char.ofNat 40

/-- ASCII closing parenthesis. -/
def cpr : Char := Char.ofNat 41

/-- ASCII opening curly brace. -/
def ocu : Char := Char.ofNat 123

/-- ASCII closing curly brace. -/
def ccu : Char := Char.ofNat 125

/-- ASCII double quote. -/
def qm : Char := Char.ofNat 34

/-- ASCII single quote. -/
def apos : Char := Char.ofNat 39

/-- ASCII backslash. -/
def bsl : Char := Char.ofNat 92

/-- ASCII newline. -/
def nlc : Char := Char.ofNat 10

/-- JavaScript whitespace (ASCII fragment): space, tab, LF, VT, FF, CR. -/
def isWS (c : Char) : Bool := c = Char.ofNat 32 || (9 ≤ c.toNat && c.toNat ≤ 13)

/-- Regex `\w`: ASCII letters, digits and underscore. -/
def isWordChar (c : Char) : Bool := c.isAlphanum || c = '_'

/-- Regex `[A-Za-z]`. -/
def isAsciiLetter (c : Char) : Bool := c.isAlpha

/-- JavaScript `String.prototype.trim` (ASCII whitespace model). -/
def jsTrim (s : Str) : Str := ((s.dropWhile isWS).reverse.dropWhile isWS).reverse

/-- Case-sensitive `String.prototype.startsWith`. -/
def leadsWith : Str → Str → Bool
  | [], _ => true
  | _ :: _, [] => false
  | p :: ps, c :: cs => p = c && leadsWith ps cs

/-- Case-insensitive prefix test (the pattern is given in lowercase). -/
def ciLeadsWith : Str → Str → Bool
  | [], _ => true
  | _ :: _, [] => false
  | p :: ps, c :: cs => p = c.toLower && ciLeadsWith ps cs

/-- JavaScript `String.prototype.split('\n')`. -/
def splitOnNl : Str → List Str
  | [] => [[]]
  | c :: rest =>
    match splitOnNl rest with
    | h :: t => if c = nlc then [] :: h :: t else (c :: h) :: t
    | [] => if c = nlc then [[], []] else [[c]]

/-- `Array.prototype.join('\n')`. -/
def joinNl : List Str → Str
  | [] => []
  | [x] => x
  | x :: y :: rest => x ++ nlc :: joinNl (y :: rest)

/-- Substring containment, as regex literal-alternative matching uses it. -/
def hasSub (pat : Str) : Str → Bool
  | [] => leadsWith pat []
  | c :: rest => leadsWith pat (c :: rest) || hasSub pat rest

namespace Dia
/-!
Embedding of the diagram sanitization routines of the `Diagram` view component
(`src/unnamed/part_001`).
-/

/-- `escapeLabel`: `text.replace(/\\/g, '\\\\').replace(/"/g, '\\"')`. -/
def escapeLabel (text : Str) : Str :=
  (text.flatMap fun c => if c = bsl then [bsl, bsl] else [c]).flatMap
    fun c => if c = qm then [bsl, qm] else [c]

/-- Strip one layer of matching surrounding double or single quotes
(`cleaned.slice(1, -1)` when first and last character are a quote pair). -/
def stripWrap (cleaned : Str) : Str :=
  match cleaned.head?, cleaned.getLast? with
  | some h, some l =>
    if (h = qm && l = qm) || (h = apos && l = apos) then (cleaned.drop 1).dropLast
    else cleaned
  | _, _ => cleaned

/-- Strip a leading and a trailing run of underscores. -/
def underscoreStrip (s : Str) : Str :=
  ((s.dropWhile (· = '_')).reverse.dropWhile (· = '_')).reverse

/-- `cleanLabel`: trim, strip one layer of matching surrounding quotes, strip
leading/trailing underscore runs, trim again, escape. -/
def cleanLabel (text : Str) : Str :=
  let cleaned := jsTrim text
  if cleaned = [] then []
  else escapeLabel (jsTrim (underscoreStrip (stripWrap cleaned)))

/-- Test of `/^fa:[\w-]+/i` on an already-trimmed string. -/
def faIconTest : Str → Bool
  | c1 :: c2 :: c3 :: c4 :: _ =>
    c1.toLower = 'f' && c2.toLower = 'a' && c3 = ':' && (isWordChar c4 || c4 = '-')
  | _ => false

/-- `formatNodeContent`: canonical quoted form of a node body, with the
`fa:`-icon first token kept unquoted. -/
def formatNodeContent (raw : Str) : Str :=
  let trimmed := jsTrim raw
  if trimmed = [] then [qm, qm]
  else if faIconTest trimmed then
    let icon := trimmed.takeWhile (fun c => !isWS c)
    let rest := jsTrim (trimmed.drop icon.length)
    if rest = [] then icon
    else icon ++ ' ' :: qm :: cleanLabel rest ++ [qm]
  else qm :: cleanLabel trimmed ++ [qm]

/-- Quote-state toggle of `splitStatements`: an unescaped double quote (not
preceded by a backslash) flips the in-quote flag. -/
def quoteToggle (prev : Option Char) (inQ : Bool) (c : Char) : Bool :=
  if c = qm && prev ≠ some bsl then !inQ else inQ

/-- One step of `splitStatements`' character loop: previous character, current
quote state, accumulated statement, remaining input. -/
def ssGo : Option Char → Bool → Str → Str → List Str
  | _, _, cur, [] => if jsTrim cur = [] then [] else [jsTrim cur]
  | prev, inQ, cur, c :: rest =>
    let inQ2 := quoteToggle prev inQ c
    if !inQ2 && (c = nlc || c = ';') then
      (if jsTrim cur = [] then [] else [jsTrim cur]) ++ ssGo (some c) inQ2 [] rest
    else ssGo (some c) inQ2 (cur ++ [c]) rest

/-- `splitStatements`: quote-aware split of a blob into trimmed non-empty
statements on unquoted newline/semicolon boundaries. -/
def splitStatements (input : Str) : List Str := ssGo none false [] input

/-- Regex `\s*$` (multiline, greedy with backtracking): the longest whitespace
run from the front of the input that ends at end-of-input or just before a
newline; returns the remainder from the `$` position. -/
def skipWsToEol : Str → Option Str
  | [] => some []
  | c :: rest =>
    if isWS c then
      match skipWsToEol rest with
      | some r => some r
      | none => if c = nlc then some (c :: rest) else none
    else none

/-- One literal alternative of the dangling-arrow regex, followed by `\s*$`. -/
def arrowStripLit (alt : Str) (s : Str) : Option Str :=
  if leadsWith alt s then skipWsToEol (s.drop alt.length) else none

/-- The `-\\.->` alternative: dash, literal backslash, any character, `->`. -/
def arrowStripWild (s : Str) : Option Str :=
  match s with
  | c1 :: c2 :: _ :: c4 :: c5 :: rest =>
    if c1 = '-' && c2 = bsl && c4 = '-' && c5 = '>' then skipWsToEol rest else none
  | _ => none

/-- Try `/(-->|---|-->>|==>|=>|-\\.->|-\+->|--x|-x)\s*$/` at the head of the
input, alternatives in source order; on success return the text after the
matched span. -/
def arrowStripTry (s : Str) : Option Str :=
  arrowStripLit ("-->".toList) s <|> arrowStripLit ("---".toList) s <|>
  arrowStripLit ("-->>".toList) s <|> arrowStripLit ("==>".toList) s <|>
  arrowStripLit ("=>".toList) s <|> arrowStripWild s <|>
  arrowStripLit ("-+->".toList) s <|> arrowStripLit ("--x".toList) s <|>
  arrowStripLit ("-x".toList) s

/-- Fueled global scan for the dangling-arrow removal; every match consumes at
least two characters, so fuel equal to the input length never runs out. -/
def arrowStripGo : Nat → Str → Str
  | 0, s => s
  | _ + 1, [] => []
  | fuel + 1, c :: rest =>
    match arrowStripTry (c :: rest) with
    | some r => arrowStripGo fuel r
    | none => c :: arrowStripGo fuel rest

/-- `normalized.replace(/(-->|---|-->>|==>|=>|-\\.->|-\+->|--x|-x)\s*$/gm, '')`. -/
def stripTrailingArrows (s : Str) : Str := arrowStripGo s.length s

/-- Try `(\w+)<open>([^<close>]*?)<close>` at the head of the input; on a match
return the replacement `id<open>formatNodeContent(content)<close>` and the rest. -/
def tryNodeAt (op cl : Char) (s : Str) : Option (Str × Str) :=
  let w := s.takeWhile isWordChar
  if w = [] then none
  else
    match s.drop w.length with
    | c :: t =>
      if c = op then
        let content := t.takeWhile (· ≠ cl)
        match t.drop content.length with
        | c2 :: u =>
          if c2 = cl then some (w ++ op :: formatNodeContent content ++ [cl], u) else none
        | [] => none
      else none
    | [] => none

/-- Fueled global scan for one bracket kind's node rewriting. -/
def nodeGo (op cl : Char) : Nat → Str → Str
  | 0, s => s
  | _ + 1, [] => []
  | fuel + 1, c :: rest =>
    match tryNodeAt op cl (c :: rest) with
    | some (e, r) => e ++ nodeGo op cl fuel r
    | none => c :: nodeGo op cl fuel rest

/-- Global replacement of `(\w+)<open>...<close>` node bodies for one bracket
kind, rewriting each body through `formatNodeContent`. -/
def replaceNodes (op cl : Char) (s : Str) : Str := nodeGo op cl s.length s

/-- Parse `\s*\|\s*([^|]+?)\s*\|` after an arrow token; return the replacement
tail `|"cleaned"|` and the remainder. The lazy/greedy capture always hands
`cleanLabel` the pipe-delimited text up to trimming, which `cleanLabel` redoes. -/
def edgeTailParse (t : Str) : Option (Str × Str) :=
  let w1 := t.takeWhile isWS
  match t.drop w1.length with
  | c :: t2 =>
    if c = '|' then
      let inner := t2.takeWhile (· ≠ '|')
      match t2.drop inner.length with
      | c2 :: u =>
        if c2 = '|' && inner ≠ [] then
          some ('|' :: qm :: cleanLabel inner ++ [qm, '|'], u)
        else none
      | [] => none
    else none
  | [] => none

/-- One literal arrow alternative of the edge-label regex plus its tail. -/
def edgeLit (alt : Str) (s : Str) : Option (Str × Str) :=
  if leadsWith alt s then
    (edgeTailParse (s.drop alt.length)).map fun p => (alt ++ p.1, p.2)
  else none

/-- The `--\s*-->` alternative of the edge-label regex plus its tail. -/
def edgeDashWs (s : Str) : Option (Str × Str) :=
  match s with
  | c1 :: c2 :: t =>
    if c1 = '-' && c2 = '-' then
      let w := t.takeWhile isWS
      match t.drop w.length with
      | d1 :: d2 :: d3 :: t2 =>
        if d1 = '-' && d2 = '-' && d3 = '>' then
          (edgeTailParse t2).map fun p => (c1 :: c2 :: w ++ d1 :: d2 :: d3 :: p.1, p.2)
        else none
      | _ => none
    else none
  | _ => none

/-- The `-\\.->` alternative of the edge-label regex plus its tail. -/
def edgeWild (s : Str) : Option (Str × Str) :=
  match s with
  | c1 :: c2 :: x :: c4 :: c5 :: rest =>
    if c1 = '-' && c2 = bsl && c4 = '-' && c5 = '>' then
      (edgeTailParse rest).map fun p => (c1 :: c2 :: x :: c4 :: c5 :: p.1, p.2)
    else none
  | _ => none

/-- Try the full edge-label pattern
`(---|-->>|--\s*-->|-->|==>|=>|-\\.->|-\+->|--x|-x)\s*\|\s*([^|]+?)\s*\|` at
the head of the input, alternatives in source order. -/
def tryEdgeAt (s : Str) : Option (Str × Str) :=
  edgeLit ("---".toList) s <|> edgeLit ("-->>".toList) s <|> edgeDashWs s <|>
  edgeLit ("-->".toList) s <|> edgeLit ("==>".toList) s <|> edgeLit ("=>".toList) s <|>
  edgeWild s <|> edgeLit ("-+->".toList) s <|> edgeLit ("--x".toList) s <|>
  edgeLit ("-x".toList) s

/-- Fueled global scan for the edge-label rewriting. -/
def edgeGo : Nat → Str → Str
  | 0, s => s
  | _ + 1, [] => []
  | fuel + 1, c :: rest =>
    match tryEdgeAt (c :: rest) with
    | some (e, r) => e ++ edgeGo fuel r
    | none => c :: edgeGo fuel rest

/-- Global rewriting of `arrow|label|` edge labels into `arrow|"cleaned"|`. -/
def rewriteEdgeLabels (s : Str) : Str := edgeGo s.length s

/-- Test of `/^graph\s/i` (also of `/^graph\s+/i`, which accepts the same
strings): case-insensitive `graph` followed by a whitespace character. -/
def graphWsTest : Str → Bool
  | c1 :: c2 :: c3 :: c4 :: c5 :: c6 :: _ =>
    c1.toLower = 'g' && c2.toLower = 'r' && c3.toLower = 'a' && c4.toLower = 'p' &&
    c5.toLower = 'h' && isWS c6
  | _ => false

/-- Capture of `/^graph\s+([A-Za-z]+)/i` on a statement already known to pass
`graphWsTest`: the direction word and the trimmed text after the match. -/
def headerDirCapture (st : Str) : Option (Str × Str) :=
  let t := st.drop 5
  let w := t.takeWhile isWS
  if w = [] then none
  else
    let t1 := t.drop w.length
    let letters := t1.takeWhile isAsciiLetter
    if letters = [] then none
    else some (letters, jsTrim (t1.drop letters.length))

/-- Direction normalization: `LR` exactly when the captured word equals `LR`
case-insensitively. -/
def dirIsLR (d : Str) : Bool := d.map Char.toLower = ['l', 'r']

/-- Header text chosen for a captured direction word. -/
def graphHeaderFor (d : Str) : Str :=
  if dirIsLR d then "graph LR".toList else "graph TD".toList

/-- The statement loop of `normalizeGraphDiagram`: the first statement passing
`/^graph\s+/i` fixes the header (its residue is re-split into the body); all
other statements are appended to the body. -/
def ngdGo : List Str → Bool → Str → List Str → Str × List Str
  | [], _, hdr, body => (hdr, body)
  | st :: rest, found, hdr, body =>
    if !found && graphWsTest st then
      match headerDirCapture st with
      | some (d, remainder) =>
        ngdGo rest true (graphHeaderFor d)
          (body ++ if remainder = [] then [] else splitStatements remainder)
      | none =>
        ngdGo rest true ("graph TD".toList)
          (body ++ if jsTrim st = [] then [] else splitStatements (jsTrim st))
    else ngdGo rest found hdr (body ++ [st])

/-- Per-statement normalization of the flow-graph body: drop semicolons, trim,
strip dangling arrows, rewrite node bodies for the three bracket kinds, then
rewrite edge labels. -/
def transformLine (line : Str) : Str :=
  let n1 := jsTrim (line.filter (· ≠ ';'))
  if n1 = [] then []
  else
    rewriteEdgeLabels (replaceNodes ocu ccu (replaceNodes opr cpr
      (replaceNodes obr cbr (stripTrailingArrows n1))))

/-- `normalizeGraphDiagram`: split into statements, determine the header, and
normalize every body statement. -/
def normalizeGraphDiagram (code : Str) : Str :=
  let statements := splitStatements code
  if statements = [] then []
  else
    let p := ngdGo statements false ("graph TD".toList) []
    joinNl (p.1 :: (p.2.map transformLine).filter (· ≠ []))

/-- `normalizeParticipantId`: drop quote characters, trim, lowercase. -/
def normalizeParticipantId (raw : Str) : Str :=
  (jsTrim (raw.filter fun c => !(c = qm || c = apos))).map Char.toLower

/-- Character class `[\w"']` of the message-target token. -/
def msgTargetChar (c : Char) : Bool := isWordChar c || c = qm || c = apos

/-- Parse `\s*[\w"']+\s*:\s*(?!")(.*)` after a message arrow. Returns the text
of the first capture group after the arrow and the second capture group. When
the greedy `\s*` after the colon stops just before a double quote, the engine
backtracks one whitespace character so that the lookahead succeeds. -/
def parseMsgTail (t : Str) : Option (Str × Str) :=
  let w1 := t.takeWhile isWS
  let t1 := t.drop w1.length
  let tgt := t1.takeWhile msgTargetChar
  if tgt = [] then none
  else
    let t2 := t1.drop tgt.length
    let w2 := t2.takeWhile isWS
    match t2.drop w2.length with
    | c :: t4 =>
      if c = ':' then
        let w3 := t4.takeWhile isWS
        let t5 := t4.drop w3.length
        if t5.head? = some qm then
          match w3.reverse with
          | lw :: rw => some (w1 ++ tgt ++ w2 ++ ':' :: rw.reverse, lw :: t5)
          | [] => none
        else some (w1 ++ tgt ++ w2 ++ ':' :: w3, t5)
      else none
    | [] => none

/-- One arrow alternative of the message regex: if it matches here and its tail
parses, produce the processed suffix (unchanged when the message text trims to
empty, quoted-and-cleaned otherwise). -/
def tryMsgAlt (alt : Str) (s : Str) : Option Str :=
  if leadsWith alt s then
    (parseMsgTail (s.drop alt.length)).map fun p =>
      let msgText := jsTrim p.2
      alt ++ p.1 ++ (if msgText = [] then p.2 else qm :: cleanLabel msgText ++ [qm])
  else none

/-- All arrow alternatives `->>|-->>|->|-->|-x|--x` in source order. -/
def tryMsgHere (s : Str) : Option Str :=
  tryMsgAlt ("->>".toList) s <|> tryMsgAlt ("-->>".toList) s <|>
  tryMsgAlt ("->".toList) s <|> tryMsgAlt ("-->".toList) s <|>
  tryMsgAlt ("-x".toList) s <|> tryMsgAlt ("--x".toList) s

/-- The leading greedy `.*` of the message regex: the rightmost position whose
arrow-and-tail parse succeeds wins. -/
def msgScan : Str → Option Str
  | [] => none
  | c :: rest =>
    match msgScan rest with
    | some r => some (c :: r)
    | none => tryMsgHere (c :: rest)

/-- Message-quoting step applied to every sequence-diagram line. -/
def msgStep (line : Str) : Str := (msgScan line).getD line

/-- Capture of `/^(\s*)<key>\s+(.+)/i`: the text after the keyword and its
separating whitespace (backtracking one whitespace character when the rest is
empty, as `.+` requires one character). -/
def lifelineName (key : Str) (line : Str) : Option Str :=
  let w := line.takeWhile isWS
  let t := line.drop w.length
  if ciLeadsWith key t then
    let t1 := t.drop key.length
    let w2 := t1.takeWhile isWS
    if w2 = [] then none
    else
      let rest := t1.drop w2.length
      if rest ≠ [] then some rest
      else
        match w2.reverse with
        | lw :: rw => if rw = [] then none else some [lw]
        | [] => none
  else none

/-- Capture of `/^(\s*)activate\s+(.+)/i`. -/
def activateName (line : Str) : Option Str := lifelineName ("activate".toList) line

/-- Capture of `/^(\s*)deactivate\s+(.+)/i`. -/
def deactivateName (line : Str) : Option Str := lifelineName ("deactivate".toList) line

/-- `Set.add` on the activation set. -/
def setAdd (s : List Str) (x : Str) : List Str := if s.contains x then s else s ++ [x]

/-- `Set.delete` on the activation set. -/
def setDelete (s : List Str) (x : Str) : List Str := s.filter (· ≠ x)

/-- One line of `sanitizeSequence`: quote the message text, then handle
`activate`/`deactivate` against the activation set; an orphaned `deactivate`
drops the whole line. -/
def seqLine (st : List Str × List Str) (line : Str) : List Str × List Str :=
  let cl := msgStep line
  match activateName cl with
  | some nm =>
    let pid := normalizeParticipantId nm
    (if pid = [] then st.1 else setAdd st.1 pid, st.2 ++ [cl])
  | none =>
    match deactivateName cl with
    | some nm =>
      let pid := normalizeParticipantId nm
      if pid = [] || !st.1.contains pid then st
      else (setDelete st.1 pid, st.2 ++ [cl])
    | none => (st.1, st.2 ++ [cl])

/-- `sanitizeSequence`: process the lines in order, starting from an empty
activation set, and rejoin the kept lines. -/
def sanitizeSequence (code : Str) : Str :=
  joinNl (((splitOnNl code).foldl seqLine ([], [])).2)

/-- ASCII backtick. -/
def tickChar : Char := Char.ofNat 96

/-- `code.replace` of every triple-backtick fence by the empty string. -/
def removeTicks : Str → Str
  | a :: b :: c :: rest =>
    if a = tickChar && b = tickChar && c = tickChar then removeTicks rest
    else a :: removeTicks (b :: c :: rest)
  | s => s

/-- Try `([A-Za-z0-9_]+)\s*:::\s*(\w+)` at the head of the input. -/
def tryTripleColonAt (s : Str) : Option (Str × Str × Str) :=
  let ent := s.takeWhile isWordChar
  if ent = [] then none
  else
    let t := s.drop ent.length
    let w1 := t.takeWhile isWS
    match t.drop w1.length with
    | ':' :: ':' :: ':' :: t2 =>
      let w2 := t2.takeWhile isWS
      let cls := (t2.drop w2.length).takeWhile isWordChar
      if cls = [] then none else some (ent, cls, t2.drop (w2.length + cls.length))
    | _ => none

/-- Fueled scan for the `:::` shorthand: the match is replaced by the entity
token and a `class <entity> <name>` assignment is recorded in match order. -/
def tripleColonGo : Nat → Str → Str × List Str
  | 0, s => (s, [])
  | _ + 1, [] => ([], [])
  | fuel + 1, c :: rest =>
    match tryTripleColonAt (c :: rest) with
    | some (ent, cls, r) =>
      let p := tripleColonGo fuel r
      (ent ++ p.1, ("class ".toList ++ jsTrim ent ++ ' ' :: cls) :: p.2)
    | none =>
      let p := tripleColonGo fuel rest
      (c :: p.1, p.2)

/-- `working.replace(/([A-Za-z0-9_]+)\s*:::\s*(\w+)/g, ...)` with its recorded
class assignments. -/
def tripleColonScan (s : Str) : Str × List Str := tripleColonGo s.length s

/-- Backtracking tail of `classDef\s+[^\n]+` when the whitespace run reaches
the end of input: the greedy `\s+` gives characters back until `[^\n]+` can
match at least one non-newline whitespace character. -/
def cdBt (w : Str) : Option (Str × Str) :=
  let kept := (w.reverse.dropWhile (· = nlc)).reverse
  if 2 ≤ kept.length then some (kept, w.drop kept.length) else none

/-- Try `classDef\s+[^\n]+` at the head of the input; returns the matched text
and the remainder. -/
def tryClassDefAt (s : Str) : Option (Str × Str) :=
  if leadsWith ("classDef".toList) s then
    let t := s.drop 8
    let w := t.takeWhile isWS
    if w = [] then none
    else
      let a := t.drop w.length
      if a ≠ [] then
        let r := a.takeWhile (· ≠ nlc)
        some ("classDef".toList ++ w ++ r, a.drop r.length)
      else
        (cdBt w).map fun p => ("classDef".toList ++ p.1, p.2)
  else none

/-- Fueled scan extracting `classDef` statements: each match is removed from
the text and recorded (semicolons dropped, trimmed) in match order. -/
def classDefGo : Nat → Str → Str × List Str
  | 0, s => (s, [])
  | _ + 1, [] => ([], [])
  | fuel + 1, c :: rest =>
    match tryClassDefAt (c :: rest) with
    | some (m, r) =>
      let p := classDefGo fuel r
      (p.1, jsTrim (m.filter (· ≠ ';')) :: p.2)
    | none =>
      let p := classDefGo fuel rest
      (c :: p.1, p.2)

/-- `working.replace(/classDef\s+[^\n]+/g, ...)` with its recorded statements. -/
def classDefScan (s : Str) : Str × List Str := classDefGo s.length s

/-- Try `}\s+(?=[A-Za-z0-9_])` at the head of the input; the lookahead
character is not consumed. -/
def tryBraceAt (s : Str) : Option Str :=
  match s with
  | c :: t =>
    if c = ccu then
      let w := t.takeWhile isWS
      if w = [] then none
      else
        match t.drop w.length with
        | d :: _ => if isWordChar d then some (t.drop w.length) else none
        | [] => none
    else none
  | [] => none

/-- Fueled scan replacing `}<ws>` before an identifier character by a brace
and a newline. -/
def braceGo : Nat → Str → Str
  | 0, s => s
  | _ + 1, [] => []
  | fuel + 1, c :: rest =>
    match tryBraceAt (c :: rest) with
    | some r => ccu :: nlc :: braceGo fuel r
    | none => c :: braceGo fuel rest

/-- `working.replace(/}\s+(?=[A-Za-z0-9_])/g, '}\n')`. -/
def braceSplit (s : Str) : Str := braceGo s.length s

/-- Remove the first occurrence of a character. -/
def removeFirstChar (c : Char) : Str → Str
  | [] => []
  | x :: r => if x = c then r else x :: removeFirstChar c r

/-- Remove the last occurrence of a character. -/
def removeLastChar (c : Char) (s : Str) : Str := (removeFirstChar c s.reverse).reverse

/-- `current.replace(/^(class(?:Def)?.*);/gm, '$1')`: on a line starting with
`class`, the greedy `.*` makes the match end at the last semicolon, which is
removed. -/
def classSemiFix (t : Str) : Str :=
  if leadsWith ("class".toList) t && (t.drop 5).contains ';' then removeLastChar ';' t
  else t

/-- Rightmost capture of `/^(.*\s:\s*)(.*)\s*$/`: group one up to and including
the last whitespace-colon pair and the following whitespace run, group two the
rest. -/
def relSplitGo : Str → Option (Str × Str)
  | [] => none
  | c :: rest =>
    match relSplitGo rest with
    | some p => some (c :: p.1, p.2)
    | none =>
      if isWS c then
        match rest with
        | ':' :: r2 =>
          let wr := r2.takeWhile isWS
          some (c :: ':' :: wr, r2.drop wr.length)
        | _ => none
      else none

/-- Test of the ER cardinality pattern `/[|o}][|-]{2}[o|{]/`. -/
def cardTest : Str → Bool
  | c1 :: c2 :: c3 :: c4 :: rest =>
    ((c1 = '|' || c1 = 'o' || c1 = ccu) && (c2 = '|' || c2 = '-') &&
     (c3 = '|' || c3 = '-') && (c4 = 'o' || c4 = '|' || c4 = ocu)) ||
    cardTest (c2 :: c3 :: c4 :: rest)
  | _ => false

/-- Quote an unquoted relationship label on a line that carries a cardinality
token. -/
def relFix (cur : Str) : Str :=
  match relSplitGo cur with
  | some p =>
    let label := jsTrim p.2
    if label ≠ [] && label.head? ≠ some qm && label.getLast? ≠ some qm && cardTest cur then
      jsTrim p.1 ++ ' ' :: qm :: cleanLabel label ++ [qm]
    else cur
  | none => cur

/-- The per-line loop of `sanitizeErd`. -/
def erdLine (acc : List Str) (line : Str) : List Str :=
  let t := jsTrim line
  if t = [] then acc else acc ++ [relFix (classSemiFix t)]

/-- `sanitizeErd`: strip fences, extract `:::` class assignments and `classDef`
statements, split run-together entity blocks, fix the remaining lines, and
append the extracted statements. -/
def sanitizeErd (code : Str) : Str :=
  let p1 := tripleColonScan (removeTicks code)
  let p2 := classDefScan p1.1
  let processed := (splitOnNl (braceSplit p2.1)).foldl erdLine []
  joinNl ((processed ++ p2.2 ++ p1.2).filter (· ≠ []))

/-- `sanitizeMermaidCode`: trim, then dispatch on the leading keyword;
unrecognized dialects pass through trimmed and otherwise unchanged. -/
def sanitizeMermaidCode (code : Str) : Str :=
  let trimmed := jsTrim code
  if trimmed = [] then []
  else if leadsWith ("graph".toList) trimmed then normalizeGraphDiagram trimmed
  else if leadsWith ("erDiagram".toList) trimmed then sanitizeErd trimmed
  else if leadsWith ("sequenceDiagram".toList) trimmed then sanitizeSequence trimmed
  else trimmed

end Dia

namespace Gem
/-!
Embedding of the diagram guarantee layer of `src/services/geminiService.ts`.
-/

/-- Screen description record of the analysis result. -/
structure ScreenDescription where
  screenName : Str
  description : Str
  uiElements : List Str
  events : List Str
  validations : List Str
deriving DecidableEq, Repr

/-- Component record of the analysis result. -/
structure ComponentInfo where
  name : Str
  path : Str
  description : Str
deriving DecidableEq, Repr

/-- The fields of the analysis result used by the guarantee layer. -/
structure AnalysisResult where
  components : List ComponentInfo
  businessFlowDiagram : Str
  screenTransitionDiagram : Str
  screenDescriptions : List ScreenDescription
deriving DecidableEq, Repr

/-- One of the three node opening brackets. -/
def isOpenBr (c : Char) : Bool := c = obr || c = opr || c = ocu

/-- Test of `/\w+\s*(?:\[|\(|\{)/` on a line: some word character followed,
after optional whitespace, by an opening bracket. -/
def nodeLineTest : Str → Bool
  | [] => false
  | c :: rest =>
    (isWordChar c &&
      (match (rest.dropWhile isWS).head? with
       | some d => isOpenBr d
       | none => false)) ||
    nodeLineTest rest

/-- Test of the edge-token regex on a line: one of the literal alternatives
`-->`, `---`, `==>`, `=>`, `-.->`, `-+->` occurs as a substring. -/
def edgeLineTest (l : Str) : Bool :=
  hasSub ("-->".toList) l || hasSub ("---".toList) l || hasSub ("==>".toList) l ||
  hasSub ("=>".toList) l || hasSub ("-.->".toList) l || hasSub ("-+->".toList) l

/-- `line.toLowerCase().startsWith('graph ')`. -/
def lowerStartsGraphSp : Str → Bool
  | c1 :: c2 :: c3 :: c4 :: c5 :: c6 :: _ =>
    c1.toLower = 'g' && c2.toLower = 'r' && c3.toLower = 'a' && c4.toLower = 'p' &&
    c5.toLower = 'h' && c6 = ' '
  | _ => false

/-- The non-empty trimmed lines of the trimmed diagram, excluding header
lines. -/
def stmtLines (trimmed : Str) : List Str :=
  ((splitOnNl trimmed).map jsTrim).filter fun l => !l.isEmpty && !lowerStartsGraphSp l

/-- `hasRenderableGraphDiagram`: structural renderability of a flow graph. -/
def hasRenderableGraphDiagram (diagram : Str) : Bool :=
  let trimmed := jsTrim diagram
  if trimmed = [] then false
  else if !Dia.graphWsTest trimmed then false
  else
    let ls := stmtLines trimmed
    if ls = [] then false
    else ls.any nodeLineTest && ls.any edgeLineTest

/-- `escapeLabel` of the service layer: escape double quotes, then trim. -/
def escapeLabel (text : Str) : Str :=
  jsTrim (text.flatMap fun c => if c = qm then [bsl, qm] else [c])

/-- Case-insensitive substring test for one lowercase literal. -/
def ciHasSub (pat : Str) (s : Str) : Bool := hasSub pat (s.map Char.toLower)

/-- Case-insensitive alternation test, as `/kw1|kw2|.../i.test` uses it. -/
def ciHasAny (pats : List Str) (s : Str) : Bool := pats.any fun p => ciHasSub p s

/-- The logic-layer keyword family. -/
def logicKeywords : List Str :=
  ["service", "controller", "api", "logic", "backend", "handler"].map String.toList

/-- The data-layer keyword family. -/
def dataKeywords : List Str :=
  ["repository", "dao", "model", "entity", "database", "db", "storage",
   "persistence"].map String.toList

/-- `pickComponentLabel`: first component whose name or path matches the
keyword family, else the fixed fallback text. -/
def pickComponentLabel (components : List ComponentInfo) (pats : List Str)
    (fallbackLabel : Str) : Str :=
  match components.find? fun comp => ciHasAny pats comp.name || ciHasAny pats comp.path with
  | none => fallbackLabel
  | some found =>
    found.name ++ (if found.description = [] then [] else " - ".toList ++ found.description)

/-- Decimal rendering of a `Nat`, as template interpolation renders an index. -/
def natStr (n : Nat) : Str := (Nat.repr n).toList

/-- The placeholder screen of the business-flow builder. -/
def fallbackBizScreen : ScreenDescription :=
  ⟨"Primary Screen".toList, "Key user interaction surface".toList, [], [], []⟩

/-- `uiNodes[i].split('[')[0]`. -/
def beforeBracket (s : Str) : Str := s.takeWhile (· ≠ obr)

/-- Last element of a non-empty list given as head and tail. -/
def lastD (a : Str) : List Str → Str
  | [] => a
  | b :: r => lastD b r

/-- Edges between consecutive UI nodes. -/
def chainPairs : List Str → List Str
  | a :: b :: rest =>
    ("  ".toList ++ beforeBracket a ++ " --> ".toList ++ beforeBracket b) ::
      chainPairs (b :: rest)
  | _ => []

/-- The edge list of the business-flow builder, before the fixed tail edges. -/
def uiEdges : List Str → List Str
  | [] => ["  User --> Logic".toList]
  | f :: rest =>
    ("  User --> ".toList ++ beforeBracket f) :: chainPairs (f :: rest) ++
      ["  ".toList ++ beforeBracket (lastD f rest) ++ " --> Logic".toList]

/-- `buildBusinessFlowFallback`: deterministic business-flow diagram from the
screen descriptions and components. -/
def buildBusinessFlowFallback (result : AnalysisResult) : Str :=
  let screens :=
    if result.screenDescriptions.isEmpty then [fallbackBizScreen]
    else result.screenDescriptions
  let flowNodes := screens.take 3
  let userNode := "User[\"User initiates action\"]".toList
  let uiNodes := flowNodes.enum.map fun p =>
    "UI".toList ++ natStr p.1 ++ "[\"".toList ++ escapeLabel p.2.screenName ++ "\"]".toList
  let backendLabel :=
    escapeLabel (pickComponentLabel result.components logicKeywords
      ("Application Logic Layer".toList))
  let dataLabel :=
    escapeLabel (pickComponentLabel result.components dataKeywords ("Data Store".toList))
  joinNl ("graph TD".toList ::
    ((("  ".toList ++ userNode) :: uiNodes.map (fun n => "  ".toList ++ n)) ++
     ["  Logic[\"".toList ++ backendLabel ++ "\"]".toList,
      "  Data[\"".toList ++ dataLabel ++ "\"]".toList,
      "  Outcome[\"Business outcome delivered\"]".toList] ++
     uiEdges uiNodes ++
     ["  Logic --> Data".toList, "  Data --> Logic".toList, "  Logic --> Outcome".toList]))

/-- The placeholder screen of the screen-transition builder. -/
def fallbackMainScreen : ScreenDescription := ⟨"Main Screen".toList, [], [], [], []⟩

/-- Edges between consecutive screen nodes. -/
def stChain : List (Str × Str) → List Str
  | a :: b :: rest =>
    ("  ".toList ++ a.1 ++ " --> ".toList ++ b.1) :: stChain (b :: rest)
  | _ => []

/-- Last element of a non-empty list of node pairs. -/
def lastP (a : Str × Str) : List (Str × Str) → Str × Str
  | [] => a
  | b :: r => lastP b r

/-- `buildScreenTransitionFallback`: deterministic screen-transition diagram
from the screen descriptions. -/
def buildScreenTransitionFallback (screens : List ScreenDescription) : Str :=
  let list := if screens.isEmpty then [fallbackMainScreen] else screens
  let baseNodes := list.enum.map fun p =>
    ("Screen".toList ++ natStr p.1,
     escapeLabel (if p.2.screenName = [] then "Screen ".toList ++ natStr (p.1 + 1)
       else p.2.screenName))
  let edges :=
    match baseNodes with
    | [] => ["  Start --> EndPoint".toList]
    | f :: rest =>
      ("  Start --> ".toList ++ f.1) ::
        (stChain (f :: rest) ++ ["  ".toList ++ (lastP f rest).1 ++ " --> EndPoint".toList])
  joinNl ("graph TD".toList ::
    ("  Start[\"User Entry\"]".toList :: ("  EndPoint[\"Goal Achieved\"]".toList ::
      (baseNodes.map (fun p => "  ".toList ++ p.1 ++ "[\"".toList ++ p.2 ++ "\"]".toList) ++
       edges))))

/-- Tail of a node alternative of the extraction regex: `\s*"([^"]+)"\s*` and
the closing bracket. -/
def quotedTail (cl : Char) (t : Str) : Option (Str × Str) :=
  let w2 := t.takeWhile isWS
  match t.drop w2.length with
  | c :: u =>
    if c = qm then
      let content := u.takeWhile (· ≠ qm)
      if content = [] then none
      else
        match u.drop content.length with
        | c2 :: v =>
          if c2 = qm then
            let w3 := v.takeWhile isWS
            match v.drop w3.length with
            | c3 :: rest => if c3 = cl then some (content, rest) else none
            | [] => none
          else none
        | [] => none
    else none
  | [] => none

/-- Try `(\w+)\s*(?:\[\s*"([^"]+)"\s*\]|\(\s*"([^"]+)"\s*\)|\{\s*"([^"]+)"\s*\})`
at the head of the input; return the label and the remainder after the match. -/
def tryNodeLabelAt (s : Str) : Option (Str × Str) :=
  let w := s.takeWhile isWordChar
  if w = [] then none
  else
    let t := s.drop w.length
    let w1 := t.takeWhile isWS
    match t.drop w1.length with
    | c :: t2 =>
      if c = obr then quotedTail cbr t2
      else if c = opr then quotedTail cpr t2
      else if c = ocu then quotedTail ccu t2
      else none
    | [] => none

/-- Fueled extraction loop with its case-insensitive dedup set. -/
def extractGo : Nat → Str → List Str → List Str
  | 0, _, _ => []
  | _ + 1, [], _ => []
  | fuel + 1, c :: rest, seen =>
    match tryNodeLabelAt (c :: rest) with
    | some (label, r) =>
      let normalized := jsTrim label
      let key := normalized.map Char.toLower
      if normalized = [] || seen.contains key then extractGo fuel r seen
      else normalized :: extractGo fuel r (seen ++ [key])
    | none => extractGo fuel rest seen

/-- `extractScreenNamesFromDiagram`: the distinct quoted node labels of a
diagram, in first-occurrence order. -/
def extractScreenNamesFromDiagram (diagram : Str) : List Str :=
  extractGo diagram.length diagram []

/-- `createPlaceholderScreen`. -/
def createPlaceholderScreen (nm : Str) : ScreenDescription :=
  ⟨nm, nm ++ " screen (auto-generated placeholder).".toList,
   ["Main content panel".toList, "Summary widget".toList],
   ["User reviews data".toList, "User navigates to other screens".toList],
   ["Basic validation is not specified".toList]⟩

/-- `screenName.trim().toLowerCase()`, the key of the description map. -/
def screenKey (s : Str) : Str := (jsTrim s).map Char.toLower

/-- Lookup in the description map; a later entry with the same key overwrites
an earlier one, as `Map.set` does. -/
def lookupLast (ds : List ScreenDescription) (k : Str) : Option ScreenDescription :=
  ds.reverse.find? fun d => screenKey d.screenName = k

/-- `ensureScreenDescriptionsMatchDiagram`: align the description list with the
labels extracted from the screen-transition diagram. -/
def ensureScreenDescriptionsMatchDiagram (result : AnalysisResult) : AnalysisResult :=
  let diagramScreens := extractScreenNamesFromDiagram result.screenTransitionDiagram
  if diagramScreens = [] then result
  else
    let synchronized := diagramScreens.map fun nm =>
      (lookupLast result.screenDescriptions (screenKey nm)).getD (createPlaceholderScreen nm)
    let extras := result.screenDescriptions.filter fun d =>
      !diagramScreens.any fun l => screenKey l = screenKey d.screenName
    { result with screenDescriptions := synchronized ++ extras }

end Gem

/-- Count step for unescaped double quotes: a quote counts unless the previous
character is a backslash (the same convention `splitStatements` uses). -/
def uqGo : Option Char → Str → Nat
  | _, [] => 0
  | prev, c :: rest => (if c = qm ∧ prev ≠ some bsl then 1 else 0) + uqGo (some c) rest

/-- Number of unescaped double quotes of a string; a string has an
un-terminated quote exactly when this is odd. -/
def unescapedQuoteCount (s : Str) : Nat := uqGo none s

/-- Text up to the first newline, the first line of a multi-line string. -/
def firstLine (s : Str) : Str := s.takeWhile (· ≠ nlc)

/-- The direction word captured from the first header statement of the input,
as the specification describes it: the first statement accepted by
`/^graph\s+/i`, captured through `/^graph\s+([A-Za-z]+)/i`. -/
def capturedDirection (s : Str) : Option Str :=
  match (Dia.splitStatements (jsTrim s)).find? Dia.graphWsTest with
  | some st => (Dia.headerDirCapture st).map Prod.fst
  | none => none

/-- Node-bracket pattern exactly as claim C3 words it: an identifier character
immediately followed by an opening bracket, with no room for whitespace. -/
def immediateNodeTest : Str → Bool
  | c :: d :: rest => (isWordChar c && Gem.isOpenBr d) || immediateNodeTest (d :: rest)
  | _ => false

/-- The recognized edge-arrow tokens of the validity classifier. -/
def edgeTokens : List Str :=
  ["-->", "---", "==>", "=>", "-.->", "-+->"].map String.toList

/-- A line contains a node-bracket pattern, in the amended sense: an identifier
character followed, after optional whitespace, by an opening bracket. -/
def specNodeProp (l : Str) : Prop :=
  ∃ a b c w br, l = a ++ w :: b ++ br :: c ∧ isWordChar w = true ∧
    (∀ x ∈ b, isWS x = true) ∧ Gem.isOpenBr br = true

/-- A line contains a recognized edge-arrow token. -/
def specEdgeProp (l : Str) : Prop :=
  ∃ tok ∈ edgeTokens, ∃ a b, l = a ++ tok ++ b

/-- The renderability condition as the (amended) claim states it. -/
def specRenderable (d : Str) : Prop :=
  jsTrim d ≠ [] ∧ Dia.graphWsTest (jsTrim d) = true ∧ Gem.stmtLines (jsTrim d) ≠ [] ∧
  (∃ l ∈ Gem.stmtLines (jsTrim d), specNodeProp l) ∧
  (∃ l ∈ Gem.stmtLines (jsTrim d), specEdgeProp l)

/-- Flow graph whose only node statement has whitespace between the identifier
and the bracket; claims C3's strict reading and the code diverge on it. -/
def c3Input : Str := "graph TD\nA [x]\nA-->B".toList

/-- Screen-transition diagram with the two labels Login and Home. -/
def loginHomeDiagram : Str := "graph TD\nA[\"Login\"]\nB[\"Home\"]".toList

/-- An existing description for the Home screen only. -/
def homeDesc : Gem.ScreenDescription :=
  ⟨"Home".toList, "Existing home description".toList, [], [], []⟩

/-- Analysis result for the claim C9 example. -/
def c9Result : Gem.AnalysisResult := ⟨[], [], loginHomeDiagram, [homeDesc]⟩

/-! ### General helper lemmas -/

theorem leadsWith_ex {p s : Str} : leadsWith p s = true ↔ ∃ t, s = p ++ t := by
  induction p generalizing s with
  | nil => simp [leadsWith]
  | cons a ps ih =>
    cases s with
    | nil => simp [leadsWith]
    | cons c cs =>
      simp only [leadsWith, Bool.and_eq_true, decide_eq_true_eq, ih, List.cons_append,
        List.cons.injEq]
      constructor
      · rintro ⟨rfl, t, rfl⟩; exact ⟨t, rfl, rfl⟩
      · rintro ⟨t, rfl, rfl⟩; exact ⟨rfl, t, rfl⟩

theorem jsTrim_all_ws {s : Str} (h : jsTrim s = []) : ∀ c ∈ s, isWS c = true := by
  unfold jsTrim at h
  rw [List.reverse_eq_nil_iff, List.dropWhile_eq_nil_iff] at h
  intro c hc
  rcases (List.takeWhile_append_dropWhile (p := isWS) (l := s)).symm ▸ hc with hmem
  rw [List.mem_append] at hmem
  rcases hmem with h1 | h2
  · exact List.mem_takeWhile_imp h1
  · exact h _ (List.mem_reverse.mpr h2)

theorem jsTrim_ne_nil_of_mem {s : Str} {c : Char} (hc : c ∈ s) (hw : isWS c = false) :
    jsTrim s ≠ [] := by
  intro h
  have := jsTrim_all_ws h c hc
  simp [hw] at this

/-! ### Claim C10 -/

/-- C10: on the one-character inputs consisting of a single double quote or a
single apostrophe, `cleanLabel` strips the lone character as a surrounding
quote pair and returns the empty string, and `formatNodeContent` applied to a
single double quote returns the empty-quoted string. -/
theorem cleanLabel_lone_quote :
    Dia.cleanLabel [qm] = [] ∧ Dia.cleanLabel [apos] = [] ∧
    Dia.formatNodeContent [qm] = [qm, qm] := by decide

/-! ### Claim C8 -/

/-- C8 counterexample: the claim's icon-token condition, read as any two-letter
namespace followed by a colon, predicts `formatNodeContent('ab:icon Login')`
keeps `ab:icon` unquoted; the code only recognizes the namespace `fa` and
quotes the whole cleaned text instead. -/
theorem formatNodeContent_ab_icon :
    Dia.formatNodeContent ("ab:icon Login".toList) = ("\"ab:icon Login\"".toList) ∧
    Dia.formatNodeContent ("ab:icon Login".toList) ≠ ("ab:icon \"Login\"".toList) := by
  decide

/-- C8 (amended): `formatNodeContent` returns the empty-quoted string on
whitespace-only input; when the trimmed input starts with an `fa:` icon token
(case-insensitively, per `/^fa:[\w-]+/i`), the first whitespace-delimited token
is kept unquoted and the cleaned remainder is quoted after it, the token alone
when there is no remainder; otherwise the whole cleaned text is quoted; and the
three concrete examples of the claim hold. -/
theorem formatNodeContent_spec (raw : Str) :
    (jsTrim raw = [] → Dia.formatNodeContent raw = [qm, qm]) ∧
    (jsTrim raw ≠ [] → Dia.faIconTest (jsTrim raw) = false →
      Dia.formatNodeContent raw = qm :: Dia.cleanLabel (jsTrim raw) ++ [qm]) ∧
    (Dia.faIconTest (jsTrim raw) = true →
      Dia.formatNodeContent raw =
        (if jsTrim ((jsTrim raw).drop ((jsTrim raw).takeWhile (fun c => !isWS c)).length) = []
         then (jsTrim raw).takeWhile (fun c => !isWS c)
         else (jsTrim raw).takeWhile (fun c => !isWS c) ++ ' ' :: qm ::
           Dia.cleanLabel
             (jsTrim ((jsTrim raw).drop ((jsTrim raw).takeWhile (fun c => !isWS c)).length)) ++
           [qm])) ∧
    Dia.formatNodeContent ("User Action".toList) = ("\"User Action\"".toList) ∧
    Dia.formatNodeContent ("fa:user Login".toList) = ("fa:user \"Login\"".toList) ∧
    Dia.formatNodeContent [] = [qm, qm] := by
  refine ⟨?_, ?_, ?_, by decide, by decide, by decide⟩
  · intro h; simp [Dia.formatNodeContent, h]
  · intro h1 h2; simp [Dia.formatNodeContent, h1, h2]
  · intro h
    have hne : jsTrim raw ≠ [] := by
      intro he; rw [he] at h; exact absurd h (by decide)
    simp [Dia.formatNodeContent, hne, h]

/-- C8 witness: the amended branch theorem applied to a concrete non-icon
input. -/
theorem formatNodeContent_spec_witness :
    Dia.formatNodeContent ("x".toList) = qm :: Dia.cleanLabel (jsTrim ("x".toList)) ++ [qm] :=
  (formatNodeContent_spec ("x".toList)).2.1 (by decide) (by decide)

/-! ### Claim C5 -/

/-- C5 counterexample: the first token of `graphx` is none of the three
keywords, yet `sanitize` does not return the trimmed input unchanged — the
dispatcher tests `startsWith('graph')`, a prefix test, not a token test. -/
theorem sanitize_graphx :
    ((jsTrim ("graphx".toList)).takeWhile (fun c => !isWS c) ≠ ("graph".toList) ∧
     (jsTrim ("graphx".toList)).takeWhile (fun c => !isWS c) ≠ ("erDiagram".toList) ∧
     (jsTrim ("graphx".toList)).takeWhile (fun c => !isWS c) ≠ ("sequenceDiagram".toList)) ∧
    Dia.sanitizeMermaidCode ("graphx".toList) ≠ jsTrim ("graphx".toList) := by decide

/-- C5 (amended): empty trimmed input yields the empty string, and an input
whose trimmed form does not start with any of the case-sensitive prefixes
`graph`, `erDiagram`, `sequenceDiagram` is returned trimmed and otherwise
unchanged. -/
theorem sanitize_dispatch (s : Str) :
    (jsTrim s = [] → Dia.sanitizeMermaidCode s = []) ∧
    (leadsWith ("graph".toList) (jsTrim s) = false →
     leadsWith ("erDiagram".toList) (jsTrim s) = false →
     leadsWith ("sequenceDiagram".toList) (jsTrim s) = false →
     Dia.sanitizeMermaidCode s = jsTrim s) := by
  constructor
  · intro h; simp [Dia.sanitizeMermaidCode, h]
  · intro h1 h2 h3
    unfold Dia.sanitizeMermaidCode
    simp only [h1, h2, h3, Bool.false_eq_true, if_false]
    split <;> simp_all

/-- C5 witness: the dispatch theorem applied to a whitespace-only input and to
an unrecognized-dialect input. -/
theorem sanitize_dispatch_witness :
    Dia.sanitizeMermaidCode (" ".toList) = [] ∧
    Dia.sanitizeMermaidCode ("hello".toList) = jsTrim ("hello".toList) :=
  ⟨(sanitize_dispatch (" ".toList)).1 (by decide),
   (sanitize_dispatch ("hello".toList)).2 (by decide) (by decide) (by decide)⟩

/-! ### Claim C6 -/

theorem ci_deact_not_act {t : Str} (h : ciLeadsWith ("deactivate".toList) t = true) :
    ciLeadsWith ("activate".toList) t = false := by
  cases t with
  | nil => exact absurd h (by decide)
  | cons c cs =>
    have hd : ("deactivate".toList) = 'd' :: ("eactivate".toList) := rfl
    have ha : ("activate".toList) = 'a' :: ("ctivate".toList) := rfl
    rw [hd] at h
    rw [ha]
    simp only [ciLeadsWith, Bool.and_eq_true, decide_eq_true_eq] at h ⊢
    have := h.1
    simp [ciLeadsWith, ← this]

theorem deactivate_imp_no_activate {l nm : Str}
    (h : Dia.deactivateName l = some nm) : Dia.activateName l = none := by
  simp only [Dia.deactivateName, Dia.lifelineName] at h
  simp only [Dia.activateName, Dia.lifelineName]
  by_cases hci :
      ciLeadsWith ("deactivate".toList) (l.drop (l.takeWhile isWS).length) = true
  · rw [ci_deact_not_act hci]
    simp
  · rw [Bool.not_eq_true] at hci
    rw [hci] at h
    simp at h

/-- C6: a `deactivate name` line of the sequence normalizer is dropped exactly
when the normalized name (quotes stripped, trimmed, lowercased) is empty or
absent from the activation set; otherwise the line is kept and the name is
removed from the set; and the three-line example drops only the line for the
never-activated Alice. -/
theorem seq_deactivate (A out : List Str) (line nm : Str)
    (h : Dia.deactivateName (Dia.msgStep line) = some nm) :
    ((Dia.normalizeParticipantId nm = [] ∨
        A.contains (Dia.normalizeParticipantId nm) = false →
       Dia.seqLine (A, out) line = (A, out)) ∧
     (Dia.normalizeParticipantId nm ≠ [] →
      A.contains (Dia.normalizeParticipantId nm) = true →
       Dia.seqLine (A, out) line =
         (Dia.setDelete A (Dia.normalizeParticipantId nm),
          out ++ [Dia.msgStep line]))) ∧
    Dia.sanitizeSequence ("activate Bob\ndeactivate Alice\ndeactivate Bob".toList) =
      ("activate Bob\ndeactivate Bob".toList) := by
  refine ⟨⟨?_, ?_⟩, by decide⟩
  · intro hc
    simp only [Dia.seqLine, deactivate_imp_no_activate h, h]
    rcases hc with hc | hc
    · simp [hc]
    · simp [hc]
      intro _
      simpa using hc
  · intro hn hcon
    simp only [Dia.seqLine, deactivate_imp_no_activate h, h]
    simp [hn, hcon]
    simpa using hcon

/-- C6 witness: the deactivate-step theorem applied to a set containing `bob`
and the line `deactivate Bob`. -/
theorem seq_deactivate_witness :
    Dia.seqLine ([("bob".toList)], []) ("deactivate Bob".toList) =
      (Dia.setDelete [("bob".toList)] (Dia.normalizeParticipantId ("Bob".toList)),
       [] ++ [Dia.msgStep ("deactivate Bob".toList)]) :=
  (seq_deactivate [("bob".toList)] [] ("deactivate Bob".toList) ("Bob".toList)
      (by decide)).1.2 (by decide) (by decide)

/-! ### Claim C2 -/

theorem uqGo_prev {p q : Option Char} (hp : p ≠ some bsl) (hq : q ≠ some bsl) (s : Str) :
    uqGo p s = uqGo q s := by
  cases s with
  | nil => rfl
  | cons c rest => simp [uqGo, hp, hq]

theorem uqGo_all_ws {p : Option Char} {w : Str} (h : ∀ c ∈ w, isWS c = true) :
    uqGo p w = 0 := by
  induction w generalizing p with
  | nil => rfl
  | cons c rest ih =>
    have hc := h c (by simp)
    have hcq : c ≠ qm := by intro e; rw [e] at hc; exact absurd hc (by decide)
    simp [uqGo, hcq, ih fun x hx => h x (by simp [hx])]

theorem uqGo_ws_left {w t : Str} (h : ∀ c ∈ w, isWS c = true) :
    uqGo none (w ++ t) = uqGo none t := by
  induction w with
  | nil => rfl
  | cons c rest ih =>
    have hc := h c (by simp)
    have hcq : c ≠ qm := by intro e; rw [e] at hc; exact absurd hc (by decide)
    have hcb : some c ≠ some bsl := by
      intro e
      have : c = bsl := by injection e
      rw [this] at hc
      exact absurd hc (by decide)
    have step : uqGo none ((c :: rest) ++ t) = uqGo (some c) (rest ++ t) := by
      simp [uqGo, hcq]
    have step2 : uqGo (some c) (rest ++ t) = uqGo none (rest ++ t) :=
      uqGo_prev hcb (show (none : Option Char) ≠ some bsl by simp) (rest ++ t)
    rw [step, step2, ih fun x hx => h x (List.mem_cons_of_mem _ hx)]

theorem uqGo_ws_right {p : Option Char} {a : Str} (w : Str) (h : ∀ c ∈ w, isWS c = true) :
    uqGo p (a ++ w) = uqGo p a := by
  induction a generalizing p with
  | nil => simpa using uqGo_all_ws h
  | cons c rest ih => simp [uqGo, ih]

theorem jsTrim_decomp (s : Str) :
    ∃ wl wr, s = wl ++ (jsTrim s ++ wr) ∧ (∀ c ∈ wl, isWS c = true) ∧
      (∀ c ∈ wr, isWS c = true) := by
  refine ⟨s.takeWhile isWS, ((s.dropWhile isWS).reverse.takeWhile isWS).reverse, ?_, ?_, ?_⟩
  · conv_lhs => rw [← List.takeWhile_append_dropWhile (p := isWS) (l := s)]
    congr 1
    conv_lhs => rw [← List.reverse_reverse (s.dropWhile isWS)]
    conv_lhs =>
      rw [← List.takeWhile_append_dropWhile (p := isWS) (l := (s.dropWhile isWS).reverse)]
    rw [List.reverse_append]
    rfl
  · exact fun c hc => List.mem_takeWhile_imp hc
  · exact fun c hc => List.mem_takeWhile_imp (List.mem_reverse.mp hc)

theorem uqCount_jsTrim (s : Str) :
    unescapedQuoteCount (jsTrim s) = unescapedQuoteCount s := by
  obtain ⟨wl, wr, hs, hl, hr⟩ := jsTrim_decomp s
  unfold unescapedQuoteCount
  conv_rhs => rw [hs]
  rw [uqGo_ws_left hl, uqGo_ws_right wr hr]

/-- C2 counterexample: on the input consisting of a single double quote,
`sanitize` returns that input unchanged, a string with an odd number of
unescaped double quotes, i.e. an un-terminated quote. -/
theorem sanitize_lone_quote :
    Dia.sanitizeMermaidCode [qm] = [qm] ∧
    unescapedQuoteCount (Dia.sanitizeMermaidCode [qm]) % 2 = 1 := by decide

/-- C2 (amended): `sanitize`, a total function here, never throws; and on every
input whose trimmed form starts with none of the dialect keywords it preserves
the number of unescaped double quotes exactly, so it returns an un-terminated
quote only when the input already contains one. The dialect normalizers can
emit an un-terminated quote, as the counterexample family shows. -/
theorem sanitize_quote_preservation (s : Str)
    (h1 : leadsWith ("graph".toList) (jsTrim s) = false)
    (h2 : leadsWith ("erDiagram".toList) (jsTrim s) = false)
    (h3 : leadsWith ("sequenceDiagram".toList) (jsTrim s) = false) :
    unescapedQuoteCount (Dia.sanitizeMermaidCode s) = unescapedQuoteCount s := by
  by_cases he : jsTrim s = []
  · simp only [Dia.sanitizeMermaidCode, he, if_true, reduceIte]
    have h0 : uqGo none s = 0 := uqGo_all_ws (jsTrim_all_ws he)
    simp [unescapedQuoteCount, uqGo, h0]
  · have hout : Dia.sanitizeMermaidCode s = jsTrim s := by
      simp only [Dia.sanitizeMermaidCode]
      rw [if_neg he, if_neg (by simp; exact h1), if_neg (by simp; exact h2),
        if_neg (by simp; exact h3)]
    rw [hout, uqCount_jsTrim]

/-- C2 witness: quote preservation applied to a plain pass-through input. -/
theorem sanitize_quote_preservation_witness :
    unescapedQuoteCount (Dia.sanitizeMermaidCode ("hello".toList)) =
      unescapedQuoteCount ("hello".toList) :=
  sanitize_quote_preservation ("hello".toList) (by decide) (by decide) (by decide)

/-! ### Claim C4 -/

theorem ssGo_ne_nil {cur input : Str} {prev : Option Char} {inQ : Bool}
    (h : ∃ c ∈ cur, isWS c = false) :
    Dia.ssGo prev inQ cur input ≠ [] := by
  induction input generalizing prev inQ cur with
  | nil =>
    obtain ⟨c, hc, hw⟩ := h
    simp [Dia.ssGo, jsTrim_ne_nil_of_mem hc hw]
  | cons c rest ih =>
    obtain ⟨d, hd, hw⟩ := h
    simp only [Dia.ssGo]
    split
    · simp [jsTrim_ne_nil_of_mem hd hw]
    · exact ih ⟨d, List.mem_append_left [c] hd, hw⟩

theorem splitStatements_cons_ne_nil {c : Char} {rest : Str} (hw : isWS c = false)
    (hnl : c ≠ nlc) (hsc : c ≠ ';') :
    Dia.splitStatements (c :: rest) ≠ [] := by
  unfold Dia.splitStatements
  simp only [Dia.ssGo]
  have e2 : (!Dia.quoteToggle none false c && (decide (c = nlc) || decide (c = ';'))) =
      false := by simp [hnl, hsc]
  rw [e2]
  simp only [Bool.false_eq_true, if_false]
  exact ssGo_ne_nil ⟨c, by simp, hw⟩

theorem ngdGo_found_hdr (stmts : List Str) (hdr : Str) (body : List Str) :
    (Dia.ngdGo stmts true hdr body).1 = hdr := by
  induction stmts generalizing body with
  | nil => rfl
  | cons st rest ih =>
    simp only [Dia.ngdGo, Bool.not_true, Bool.false_and, Bool.false_eq_true, reduceIte]
    exact ih _

theorem ngdGo_hdr (stmts : List Str) (body : List Str) :
    (Dia.ngdGo stmts false ("graph TD".toList) body).1 =
      (match stmts.find? Dia.graphWsTest with
       | none => "graph TD".toList
       | some st =>
         match Dia.headerDirCapture st with
         | some p => Dia.graphHeaderFor p.1
         | none => "graph TD".toList) := by
  induction stmts generalizing body with
  | nil => rfl
  | cons st rest ih =>
    by_cases hg : Dia.graphWsTest st = true
    · rw [List.find?_cons_of_pos _ hg]
      simp only [Dia.ngdGo, hg, Bool.not_false, Bool.true_and, reduceIte]
      cases hcap : Dia.headerDirCapture st with
      | some p => simp [hcap, ngdGo_found_hdr]
      | none => simp [hcap, ngdGo_found_hdr]
    · rw [List.find?_cons_of_neg _ (by simpa using hg)]
      simp only [Dia.ngdGo, hg, Bool.not_false, Bool.true_and, Bool.false_eq_true, reduceIte]
      exact ih _

theorem takeWhile_ne_nlc {s : Str} (h : ∀ c ∈ s, c ≠ nlc) :
    s.takeWhile (· ≠ nlc) = s := by
  induction s with
  | nil => rfl
  | cons c rest ih =>
    simp only [List.takeWhile_cons]
    rw [if_pos (by simpa using h c (by simp))]
    rw [ih fun x hx => h x (by simp [hx])]

theorem takeWhile_append_nlc {s : Str} (t : Str) (h : ∀ c ∈ s, c ≠ nlc) :
    (s ++ nlc :: t).takeWhile (· ≠ nlc) = s := by
  induction s with
  | nil => simp
  | cons c rest ih =>
    simp only [List.cons_append, List.takeWhile_cons]
    rw [if_pos (by simpa using h c (by simp))]
    rw [ih fun x hx => h x (by simp [hx])]

theorem firstLine_joinNl {hdr : Str} (xs : List Str) (h : ∀ c ∈ hdr, c ≠ nlc) :
    firstLine (joinNl (hdr :: xs)) = hdr := by
  cases xs with
  | nil => exact takeWhile_ne_nlc h
  | cons y ys => exact takeWhile_append_nlc _ h

/-- C4: for every input whose trimmed form starts with `graph`, the first line
of the sanitized output is exactly `graph TD` or `graph LR`, and it is
`graph LR` exactly when the direction word captured from the first header
statement equals `LR` case-insensitively (with `graph TD` in every other case,
including a missing header statement or a failed capture). -/
theorem sanitize_graph_header (s : Str)
    (h : leadsWith ("graph".toList) (jsTrim s) = true) :
    (firstLine (Dia.sanitizeMermaidCode s) = ("graph TD".toList) ∨
     firstLine (Dia.sanitizeMermaidCode s) = ("graph LR".toList)) ∧
    (firstLine (Dia.sanitizeMermaidCode s) = ("graph LR".toList) ↔
      ∃ d, capturedDirection s = some d ∧ Dia.dirIsLR d = true) := by
  obtain ⟨t, ht⟩ := leadsWith_ex.mp h
  have hne : jsTrim s ≠ [] := by rw [ht]; simp
  have hroute : Dia.sanitizeMermaidCode s = Dia.normalizeGraphDiagram (jsTrim s) := by
    simp only [Dia.sanitizeMermaidCode]
    rw [if_neg hne, if_pos h]
  have hstmts : Dia.splitStatements (jsTrim s) ≠ [] := by
    rw [ht, show ("graph".toList ++ t) = 'g' :: ("raph".toList ++ t) from rfl]
    exact splitStatements_cons_ne_nil (by decide) (by decide) (by decide)
  have hng : Dia.normalizeGraphDiagram (jsTrim s) =
      joinNl ((Dia.ngdGo (Dia.splitStatements (jsTrim s)) false ("graph TD".toList) []).1 ::
        (((Dia.ngdGo (Dia.splitStatements (jsTrim s)) false
            ("graph TD".toList) []).2.map Dia.transformLine).filter (· ≠ []))) := by
    simp only [Dia.normalizeGraphDiagram]
    rw [if_neg hstmts]
  rw [hroute, hng]
  have hHdr := ngdGo_hdr (Dia.splitStatements (jsTrim s)) []
  rcases hfind : (Dia.splitStatements (jsTrim s)).find? Dia.graphWsTest with _ | st
  · simp only [hfind] at hHdr
    rw [hHdr, firstLine_joinNl _ (by decide)]
    refine ⟨Or.inl rfl, ?_, ?_⟩
    · intro hEq; exact absurd hEq (by decide)
    · rintro ⟨d, hd, _⟩
      simp [capturedDirection, hfind] at hd
  · rcases hcap : Dia.headerDirCapture st with _ | p
    · simp only [hfind, hcap] at hHdr
      rw [hHdr, firstLine_joinNl _ (by decide)]
      refine ⟨Or.inl rfl, ?_, ?_⟩
      · intro hEq; exact absurd hEq (by decide)
      · rintro ⟨d, hd, _⟩
        simp [capturedDirection, hfind, hcap] at hd
    · simp only [hfind, hcap] at hHdr
      by_cases hlr : Dia.dirIsLR p.1 = true
      · rw [hHdr, Dia.graphHeaderFor, if_pos hlr, firstLine_joinNl _ (by decide)]
        refine ⟨Or.inr rfl, ?_, fun _ => rfl⟩
        intro _
        exact ⟨p.1, by simp [capturedDirection, hfind, hcap], hlr⟩
      · rw [hHdr, Dia.graphHeaderFor, if_neg hlr, firstLine_joinNl _ (by decide)]
        refine ⟨Or.inl rfl, ?_, ?_⟩
        · intro hEq; exact absurd hEq (by decide)
        · rintro ⟨d, hd, hdlr⟩
          simp [capturedDirection, hfind, hcap] at hd
          rw [← hd] at hdlr
          exact absurd hdlr hlr

/-! ### Claim C7: membership infrastructure -/

theorem mem_trimLike {p : Char → Bool} {s : Str} {c : Char}
    (h : c ∈ ((s.dropWhile p).reverse.dropWhile p).reverse) : c ∈ s := by
  rw [List.mem_reverse] at h
  have h1 := (List.dropWhile_sublist _).subset h
  rw [List.mem_reverse] at h1
  exact (List.dropWhile_sublist _).subset h1

theorem mem_jsTrim {s : Str} {c : Char} (h : c ∈ jsTrim s) : c ∈ s := mem_trimLike h

theorem mem_underscoreStrip {s : Str} {c : Char} (h : c ∈ Dia.underscoreStrip s) : c ∈ s := by
  unfold Dia.underscoreStrip at h
  exact mem_trimLike h

theorem mem_stripWrap {l : Str} {c : Char} (h : c ∈ Dia.stripWrap l) : c ∈ l := by
  unfold Dia.stripWrap at h
  split at h
  · split at h
    · exact List.drop_subset _ _ ((List.dropLast_sublist _).subset h)
    · exact h
  · exact h

theorem mem_escapeLabel {t : Str} {c : Char} (h : c ∈ Dia.escapeLabel t) :
    c ∈ t ∨ c = bsl := by
  unfold Dia.escapeLabel at h
  rw [List.mem_flatMap] at h
  obtain ⟨a, ha, hca⟩ := h
  rw [List.mem_flatMap] at ha
  obtain ⟨b, hb, hab⟩ := ha
  by_cases hbb : b = bsl
  · rw [if_pos hbb] at hab
    have ha2 : a = bsl := by simpa using hab
    subst ha2
    rw [if_neg (by decide)] at hca
    right
    simpa using hca
  · rw [if_neg hbb] at hab
    have hab2 : a = b := by simpa using hab
    subst hab2
    by_cases haq : a = qm
    · rw [if_pos haq] at hca
      rcases (by simpa using hca : c = bsl ∨ c = qm) with h1 | h1
      · right; exact h1
      · left; rw [h1, ← haq]; exact hb
    · rw [if_neg haq] at hca
      have : c = a := by simpa using hca
      left; rw [this]; exact hb

theorem mem_cleanLabel {t : Str} {c : Char} (h : c ∈ Dia.cleanLabel t) :
    c ∈ t ∨ c = bsl := by
  simp only [Dia.cleanLabel] at h
  split at h
  · cases h
  · rcases mem_escapeLabel h with h1 | h1
    · exact Or.inl (mem_jsTrim (mem_stripWrap (mem_underscoreStrip (mem_jsTrim h1))))
    · exact Or.inr h1

theorem mem_formatNodeContent {t : Str} {c : Char} (h : c ∈ Dia.formatNodeContent t) :
    c ∈ t ∨ c = bsl ∨ c = qm ∨ c = ' ' := by
  by_cases h0 : jsTrim t = []
  · simp [Dia.formatNodeContent, h0] at h
    exact Or.inr (Or.inr (Or.inl h))
  · by_cases h1 : Dia.faIconTest (jsTrim t) = true
    · by_cases h2 :
        jsTrim ((jsTrim t).drop ((jsTrim t).takeWhile (fun x => !isWS x)).length) = []
      · simp only [Dia.formatNodeContent, h0, h1, h2, if_true, if_false, reduceIte] at h
        exact Or.inl (mem_jsTrim ((List.takeWhile_sublist _).subset h))
      · simp only [Dia.formatNodeContent, h0, h1, h2, if_true, if_false, reduceIte,
          List.mem_append, List.mem_cons, List.mem_singleton, List.not_mem_nil,
          or_false] at h
        rcases h with (h | h | h | h) | h
        · exact Or.inl (mem_jsTrim ((List.takeWhile_sublist _).subset h))
        · exact Or.inr (Or.inr (Or.inr h))
        · exact Or.inr (Or.inr (Or.inl h))
        · rcases mem_cleanLabel h with hℓ | hℓ
          · exact Or.inl (mem_jsTrim (List.drop_subset _ _ (mem_jsTrim hℓ)))
          · exact Or.inr (Or.inl hℓ)
        · exact Or.inr (Or.inr (Or.inl h))
    · simp only [Dia.formatNodeContent, h0, h1, Bool.false_eq_true, if_true, if_false,
        reduceIte, List.mem_append, List.mem_cons, List.mem_singleton, List.not_mem_nil,
        or_false] at h
      rcases h with (h | h) | h
      · exact Or.inr (Or.inr (Or.inl h))
      · rcases mem_cleanLabel h with hℓ | hℓ
        · exact Or.inl (mem_jsTrim hℓ)
        · exact Or.inr (Or.inl hℓ)
      · exact Or.inr (Or.inr (Or.inl h))

theorem orElse_eq_some {α : Type} {a b : Option α} {r : α} (h : (a <|> b) = some r) :
    a = some r ∨ b = some r := by
  cases a <;> simp_all

theorem skipWsToEol_suffix {s r : Str} (h : Dia.skipWsToEol s = some r) : r <:+ s := by
  induction s generalizing r with
  | nil =>
    simp only [Dia.skipWsToEol] at h
    injection h with h
    rw [← h]
  | cons c rest ih =>
    simp only [Dia.skipWsToEol] at h
    split at h
    · split at h
      · rename_i r2 heq
        injection h with h
        rw [← h]
        exact (ih heq).trans (List.suffix_cons c rest)
      · split at h
        · injection h with h
          rw [← h]
        · cases h
    · cases h

theorem arrowStripLit_subset {alt s r : Str} (h : Dia.arrowStripLit alt s = some r) :
    ∀ c ∈ r, c ∈ s := by
  unfold Dia.arrowStripLit at h
  split at h
  · intro c hc
    exact List.drop_subset _ _ ((skipWsToEol_suffix h).subset hc)
  · cases h

theorem arrowStripWild_subset {s r : Str} (h : Dia.arrowStripWild s = some r) :
    ∀ c ∈ r, c ∈ s := by
  unfold Dia.arrowStripWild at h
  split at h
  · split at h
    · intro c hc
      have hrest := (skipWsToEol_suffix h).subset hc
      simp [hrest]
    · cases h
  · cases h

theorem arrowStripTry_subset {s r : Str} (h : Dia.arrowStripTry s = some r) :
    ∀ c ∈ r, c ∈ s := by
  unfold Dia.arrowStripTry at h
  rcases orElse_eq_some h with h | h
  · exact arrowStripLit_subset h
  rcases orElse_eq_some h with h | h
  · exact arrowStripLit_subset h
  rcases orElse_eq_some h with h | h
  · exact arrowStripLit_subset h
  rcases orElse_eq_some h with h | h
  · exact arrowStripLit_subset h
  rcases orElse_eq_some h with h | h
  · exact arrowStripLit_subset h
  rcases orElse_eq_some h with h | h
  · exact arrowStripWild_subset h
  rcases orElse_eq_some h with h | h
  · exact arrowStripLit_subset h
  rcases orElse_eq_some h with h | h
  · exact arrowStripLit_subset h
  exact arrowStripLit_subset h

theorem mem_arrowStripGo {n : Nat} {s : Str} {c : Char} (h : c ∈ Dia.arrowStripGo n s) :
    c ∈ s := by
  induction n generalizing s with
  | zero => simpa [Dia.arrowStripGo] using h
  | succ n ih =>
    cases s with
    | nil => simp [Dia.arrowStripGo] at h
    | cons a rest =>
      simp only [Dia.arrowStripGo] at h
      rcases htry : Dia.arrowStripTry (a :: rest) with _ | r
      · rw [htry] at h
        simp only [List.mem_cons] at h
        rcases h with h | h
        · simp [h]
        · have := ih h
          simp [this]
      · rw [htry] at h
        exact arrowStripTry_subset htry c (ih h)

theorem tryNodeAt_no_semi {op cl : Char} {s e r : Str}
    (h : Dia.tryNodeAt op cl s = some (e, r)) (hop : op ≠ ';') (hcl : cl ≠ ';')
    (hs : (';' : Char) ∉ s) : ((';' : Char) ∉ e) ∧ ((';' : Char) ∉ r) := by
  simp only [Dia.tryNodeAt] at h
  split at h
  · cases h
  · split at h
    · rename_i c0 t heq
      split at h
      · split at h
        · rename_i c2 u heq2
          split at h
          · injection h with h
            rw [Prod.mk.injEq] at h
            obtain ⟨he, hr⟩ := h
            have hmemt : ∀ d : Char, d ∈ t → d ∈ s := by
              intro d hd
              have h1 : d ∈ s.drop (s.takeWhile isWordChar).length := by
                rw [heq]; simp [hd]
              exact List.drop_subset _ _ h1
            constructor
            · intro hmem
              rw [← he] at hmem
              rcases List.mem_append.mp hmem with hm | hm
              · rcases List.mem_append.mp hm with hm2 | hm2
                · exact hs ((List.takeWhile_sublist _).subset hm2)
                · rcases List.mem_cons.mp hm2 with hm3 | hm3
                  · exact hop hm3.symm
                  · rcases mem_formatNodeContent hm3 with h1 | h1 | h1 | h1
                    · exact hs (hmemt _ ((List.takeWhile_sublist _).subset h1))
                    · exact absurd h1 (by decide)
                    · exact absurd h1 (by decide)
                    · exact absurd h1 (by decide)
              · have hm2 : (';' : Char) = cl := by simpa using hm
                exact hcl hm2.symm
            · intro hmem
              rw [← hr] at hmem
              have h1 : (';' : Char) ∈ t.drop (t.takeWhile (· ≠ cl)).length := by
                rw [heq2]; simp [hmem]
              exact hs (hmemt _ (List.drop_subset _ _ h1))
          · cases h
        · cases h
      · cases h
    · cases h

theorem nodeGo_no_semi {op cl : Char} (hop : op ≠ ';') (hcl : cl ≠ ';') :
    ∀ n s, ((';' : Char) ∉ s) → (';' : Char) ∉ Dia.nodeGo op cl n s := by
  intro n
  induction n with
  | zero => intro s hs; simpa [Dia.nodeGo] using hs
  | succ n ih =>
    intro s hs
    cases s with
    | nil => simp [Dia.nodeGo]
    | cons a rest =>
      simp only [Dia.nodeGo]
      rcases htry : Dia.tryNodeAt op cl (a :: rest) with _ | ⟨e, r⟩
      · show (';' : Char) ∉ a :: Dia.nodeGo op cl n rest
        intro hmem
        simp only [List.mem_cons] at hmem
        rcases hmem with h1 | h1
        · exact hs (by simp [← h1])
        · exact ih rest (fun hm => hs (by simp [hm])) h1
      · show (';' : Char) ∉ e ++ Dia.nodeGo op cl n r
        intro hmem
        obtain ⟨hne, hnr⟩ := tryNodeAt_no_semi htry hop hcl hs
        rw [List.mem_append] at hmem
        rcases hmem with h1 | h1
        · exact hne h1
        · exact ih r hnr h1

theorem edgeTailParse_no_semi {t rep u : Str} (h : Dia.edgeTailParse t = some (rep, u))
    (ht : (';' : Char) ∉ t) : ((';' : Char) ∉ rep) ∧ ((';' : Char) ∉ u) := by
  simp only [Dia.edgeTailParse] at h
  split at h
  · rename_i c0 t2 heq
    split at h
    · split at h
      · rename_i c2 u2 heq2
        split at h
        · injection h with h
          rw [Prod.mk.injEq] at h
          obtain ⟨he, hr⟩ := h
          have hmemt2 : ∀ d : Char, d ∈ t2 → d ∈ t := by
            intro d hd
            have h1 : d ∈ t.drop (t.takeWhile isWS).length := by
              rw [heq]; simp [hd]
            exact List.drop_subset _ _ h1
          constructor
          · intro hmem
            rw [← he] at hmem
            rcases List.mem_cons.mp hmem with hm | hm
            · exact absurd hm (by decide)
            · rcases List.mem_cons.mp hm with hm2 | hm2
              · exact absurd hm2 (by decide)
              · rcases List.mem_append.mp hm2 with hm3 | hm3
                · rcases mem_cleanLabel hm3 with h1 | h1
                  · exact ht (hmemt2 _ ((List.takeWhile_sublist _).subset h1))
                  · exact absurd h1 (by decide)
                · have : (';' : Char) ∈ [qm, '|'] := hm3
                  exact absurd this (by decide)
          · intro hmem
            rw [← hr] at hmem
            have h1 : (';' : Char) ∈ t2.drop (t2.takeWhile (· ≠ '|')).length := by
              rw [heq2]; simp [hmem]
            exact ht (hmemt2 _ (List.drop_subset _ _ h1))
        · cases h
      · cases h
    · cases h
  · cases h

theorem edgeLit_no_semi {alt s e r : Str} (h : Dia.edgeLit alt s = some (e, r))
    (hs : (';' : Char) ∉ s) : ((';' : Char) ∉ e) ∧ ((';' : Char) ∉ r) := by
  unfold Dia.edgeLit at h
  split at h
  · rename_i hlw
    rcases hp : Dia.edgeTailParse (s.drop alt.length) with _ | ⟨rep, u⟩
    · rw [hp] at h; cases h
    · rw [hp] at h
      simp only [Option.map_some'] at h
      injection h with h
      rw [Prod.mk.injEq] at h
      obtain ⟨he, hr⟩ := h
      obtain ⟨tl, htl⟩ := leadsWith_ex.mp hlw
      have hdrop : (';' : Char) ∉ s.drop alt.length := fun hm => hs (List.drop_subset _ _ hm)
      obtain ⟨hrep, hu⟩ := edgeTailParse_no_semi hp hdrop
      constructor
      · intro hmem
        rw [← he, List.mem_append] at hmem
        rcases hmem with hm | hm
        · exact hs (by rw [htl]; exact List.mem_append_left _ hm)
        · exact hrep hm
      · intro hmem
        rw [← hr] at hmem
        exact hu hmem
  · cases h

theorem edgeDashWs_no_semi {s : Str} {e r : Str} (h : Dia.edgeDashWs s = some (e, r))
    (hs : (';' : Char) ∉ s) : ((';' : Char) ∉ e) ∧ ((';' : Char) ∉ r) := by
  simp only [Dia.edgeDashWs] at h
  split at h
  · rename_i c1 c2 t
    split at h
    · split at h
      · rename_i d1 d2 d3 t2 heq
        split at h
        · rcases hp : Dia.edgeTailParse t2 with _ | ⟨rep, u⟩
          · rw [hp] at h; cases h
          · rw [hp] at h
            simp only [Option.map_some'] at h
            injection h with h
            rw [Prod.mk.injEq] at h
            obtain ⟨he, hr⟩ := h
            have hmemt : ∀ d : Char, d ∈ t → d ∈ c1 :: c2 :: t := fun d hd => by simp [hd]
            have hmemt2 : ∀ d : Char, d ∈ t2 → d ∈ c1 :: c2 :: t := by
              intro d hd
              have h1 : d ∈ t.drop (t.takeWhile isWS).length := by
                rw [heq]; simp [hd]
              exact hmemt _ (List.drop_subset _ _ h1)
            have hds : ∀ d : Char, d = d1 ∨ d = d2 ∨ d = d3 → d ∈ c1 :: c2 :: t := by
              intro d hd
              have h1 : d ∈ t.drop (t.takeWhile isWS).length := by
                rw [heq]
                rcases hd with h1 | h1 | h1 <;> simp [h1]
              exact hmemt _ (List.drop_subset _ _ h1)
            obtain ⟨hrep, hu⟩ :=
              edgeTailParse_no_semi hp (fun hm => hs (hmemt2 _ hm))
            constructor
            · intro hmem
              rw [← he] at hmem
              rcases List.mem_cons.mp hmem with hm | hm
              · exact hs (by simp [← hm])
              · rcases List.mem_cons.mp hm with hm | hm
                · exact hs (by simp [← hm])
                · rcases List.mem_append.mp hm with hm | hm
                  · exact hs (hmemt _ ((List.takeWhile_sublist _).subset hm))
                  · rcases List.mem_cons.mp hm with hm | hm
                    · exact hs (hds _ (Or.inl hm))
                    · rcases List.mem_cons.mp hm with hm | hm
                      · exact hs (hds _ (Or.inr (Or.inl hm)))
                      · rcases List.mem_cons.mp hm with hm | hm
                        · exact hs (hds _ (Or.inr (Or.inr hm)))
                        · exact hrep hm
            · intro hmem
              rw [← hr] at hmem
              exact hu hmem
        · cases h
      · cases h
    · cases h
  · cases h

theorem edgeWild_no_semi {s : Str} {e r : Str} (h : Dia.edgeWild s = some (e, r))
    (hs : (';' : Char) ∉ s) : ((';' : Char) ∉ e) ∧ ((';' : Char) ∉ r) := by
  simp only [Dia.edgeWild] at h
  split at h
  · rename_i c1 c2 x c4 c5 rest
    split at h
    · rcases hp : Dia.edgeTailParse rest with _ | ⟨rep, u⟩
      · rw [hp] at h; cases h
      · rw [hp] at h
        simp only [Option.map_some'] at h
        injection h with h
        rw [Prod.mk.injEq] at h
        obtain ⟨he, hr⟩ := h
        obtain ⟨hrep, hu⟩ :=
          edgeTailParse_no_semi hp (fun hm => hs (by simp [hm]))
        constructor
        · intro hmem
          rw [← he] at hmem
          rcases List.mem_cons.mp hmem with hm | hm
          · exact hs (by simp [← hm])
          · rcases List.mem_cons.mp hm with hm | hm
            · exact hs (by simp [← hm])
            · rcases List.mem_cons.mp hm with hm | hm
              · exact hs (by simp [← hm])
              · rcases List.mem_cons.mp hm with hm | hm
                · exact hs (by simp [← hm])
                · rcases List.mem_cons.mp hm with hm | hm
                  · exact hs (by simp [← hm])
                  · exact hrep hm
        · intro hmem
          rw [← hr] at hmem
          exact hu hmem
    · cases h
  · cases h

theorem tryEdgeAt_no_semi {s : Str} {e r : Str} (h : Dia.tryEdgeAt s = some (e, r))
    (hs : (';' : Char) ∉ s) : ((';' : Char) ∉ e) ∧ ((';' : Char) ∉ r) := by
  unfold Dia.tryEdgeAt at h
  rcases orElse_eq_some h with h | h
  · exact edgeLit_no_semi h hs
  rcases orElse_eq_some h with h | h
  · exact edgeLit_no_semi h hs
  rcases orElse_eq_some h with h | h
  · exact edgeDashWs_no_semi h hs
  rcases orElse_eq_some h with h | h
  · exact edgeLit_no_semi h hs
  rcases orElse_eq_some h with h | h
  · exact edgeLit_no_semi h hs
  rcases orElse_eq_some h with h | h
  · exact edgeLit_no_semi h hs
  rcases orElse_eq_some h with h | h
  · exact edgeWild_no_semi h hs
  rcases orElse_eq_some h with h | h
  · exact edgeLit_no_semi h hs
  rcases orElse_eq_some h with h | h
  · exact edgeLit_no_semi h hs
  exact edgeLit_no_semi h hs

theorem edgeGo_no_semi : ∀ n s, ((';' : Char) ∉ s) → (';' : Char) ∉ Dia.edgeGo n s := by
  intro n
  induction n with
  | zero => intro s hs; simpa [Dia.edgeGo] using hs
  | succ n ih =>
    intro s hs
    cases s with
    | nil => simp [Dia.edgeGo]
    | cons a rest =>
      simp only [Dia.edgeGo]
      rcases htry : Dia.tryEdgeAt (a :: rest) with _ | ⟨e, r⟩
      · show (';' : Char) ∉ a :: Dia.edgeGo n rest
        intro hmem
        simp only [List.mem_cons] at hmem
        rcases hmem with h1 | h1
        · exact hs (by simp [← h1])
        · exact ih rest (fun hm => hs (by simp [hm])) h1
      · show (';' : Char) ∉ e ++ Dia.edgeGo n r
        intro hmem
        obtain ⟨hne, hnr⟩ := tryEdgeAt_no_semi htry hs
        rw [List.mem_append] at hmem
        rcases hmem with h1 | h1
        · exact hne h1
        · exact ih r hnr h1

theorem transformLine_no_semi (l : Str) : (';' : Char) ∉ Dia.transformLine l := by
  simp only [Dia.transformLine]
  split
  · simp
  · have h1 : (';' : Char) ∉ jsTrim (l.filter (· ≠ ';')) := by
      intro hm
      have h2 := mem_jsTrim hm
      simp at h2
    have h2 : (';' : Char) ∉ Dia.stripTrailingArrows (jsTrim (l.filter (· ≠ ';'))) :=
      fun hm => h1 (mem_arrowStripGo hm)
    have h3 : (';' : Char) ∉ Dia.replaceNodes obr cbr
        (Dia.stripTrailingArrows (jsTrim (l.filter (· ≠ ';')))) :=
      nodeGo_no_semi (by decide) (by decide) _ _ h2
    have h4 : (';' : Char) ∉ Dia.replaceNodes opr cpr (Dia.replaceNodes obr cbr
        (Dia.stripTrailingArrows (jsTrim (l.filter (· ≠ ';'))))) :=
      nodeGo_no_semi (by decide) (by decide) _ _ h3
    have h5 : (';' : Char) ∉ Dia.replaceNodes ocu ccu (Dia.replaceNodes opr cpr
        (Dia.replaceNodes obr cbr (Dia.stripTrailingArrows (jsTrim (l.filter (· ≠ ';')))))) :=
      nodeGo_no_semi (by decide) (by decide) _ _ h4
    exact edgeGo_no_semi _ _ h5

theorem mem_joinNl {L : List Str} {c : Char} (h : c ∈ joinNl L) :
    c = nlc ∨ ∃ x ∈ L, c ∈ x := by
  induction L with
  | nil => simp [joinNl] at h
  | cons a L ih =>
    cases L with
    | nil =>
      simp only [joinNl] at h
      exact Or.inr ⟨a, by simp, h⟩
    | cons b L2 =>
      simp only [joinNl] at h
      rw [List.mem_append, List.mem_cons] at h
      rcases h with h | h | h
      · exact Or.inr ⟨a, by simp, h⟩
      · exact Or.inl h
      · rcases ih h with h1 | ⟨x, hx, hcx⟩
        · exact Or.inl h1
        · exact Or.inr ⟨x, by simp [List.mem_cons]; right; simpa using hx, hcx⟩

theorem ngdGo_hdr_no_semi : ∀ (stmts : List Str) (found : Bool) (hdr : Str)
    (body : List Str), (';' : Char) ∉ hdr →
    (';' : Char) ∉ (Dia.ngdGo stmts found hdr body).1 := by
  intro stmts
  induction stmts with
  | nil => intro found hdr body hh; simpa [Dia.ngdGo] using hh
  | cons st rest ih =>
    intro found hdr body hh
    simp only [Dia.ngdGo]
    split
    · split
      · apply ih
        simp only [Dia.graphHeaderFor]
        split <;> decide
      · apply ih
        decide
    · exact ih _ _ _ hh

/-! ### Claim C1 -/

theorem getLast?_append_ne {α : Type} {l1 l2 : List α} (h : l2 ≠ []) :
    (l1 ++ l2).getLast? = l2.getLast? := by
  rw [List.getLast?_append]
  cases h2 : l2.getLast? with
  | none => exact absurd (List.getLast?_eq_none_iff.mp h2) h
  | some a => rfl

theorem splitOnNl_ne_nil (x : Str) : splitOnNl x ≠ [] := by
  cases x with
  | nil => simp [splitOnNl]
  | cons c r =>
    simp only [splitOnNl]
    split
    · split <;> simp
    · split <;> simp

theorem splitOnNl_no_nl {x : Str} (h : ∀ c ∈ x, c ≠ nlc) : splitOnNl x = [x] := by
  induction x with
  | nil => rfl
  | cons c r ih =>
    simp only [splitOnNl]
    rw [ih fun d hd => h d (by simp [hd])]
    have hc : c ≠ nlc := h c (by simp)
    simp [hc]

theorem splitOnNl_append (a b : Str) :
    splitOnNl (a ++ nlc :: b) = splitOnNl a ++ splitOnNl b := by
  induction a with
  | nil =>
    rcases hb : splitOnNl b with _ | ⟨h0, t0⟩
    · exact absurd hb (splitOnNl_ne_nil b)
    · simp [splitOnNl, hb]
  | cons c a ih =>
    rcases ha : splitOnNl (a ++ nlc :: b) with _ | ⟨h0, t0⟩
    · exact absurd ha (splitOnNl_ne_nil _)
    · rcases ha2 : splitOnNl a with _ | ⟨h1, t1⟩
      · exact absurd ha2 (splitOnNl_ne_nil _)
      · have hsplit : h0 :: t0 = h1 :: (t1 ++ splitOnNl b) := by
          rw [← ha, ih, ha2, List.cons_append]
        injection hsplit with e1 e2
        show splitOnNl (c :: (a ++ nlc :: b)) = splitOnNl (c :: a) ++ splitOnNl b
        simp only [splitOnNl, ha, ha2]
        split
        · simp [e1, e2]
        · simp [e1, e2]

theorem splitOnNl_joinNl (x : Str) (L : List Str) :
    splitOnNl (joinNl (x :: L)) = splitOnNl x ++ L.flatMap splitOnNl := by
  induction L generalizing x with
  | nil => simp [joinNl]
  | cons y L ih =>
    rw [show joinNl (x :: y :: L) = x ++ nlc :: joinNl (y :: L) from rfl]
    rw [splitOnNl_append, ih]
    simp

theorem joinNl_cons_ne {x : Str} {L : List Str} (h : L ≠ []) :
    joinNl (x :: L) = x ++ nlc :: joinNl L := by
  cases L with
  | nil => exact absurd rfl h
  | cons y L2 => rfl

theorem joinNl_concat_facts : ∀ (A : List Str) (z : Str), z ≠ [] →
    (joinNl (A ++ [z])).getLast? = z.getLast? ∧ joinNl (A ++ [z]) ≠ [] := by
  intro A
  induction A with
  | nil => intro z hz; exact ⟨rfl, hz⟩
  | cons x A ih =>
    intro z hz
    obtain ⟨ih1, ih2⟩ := ih z hz
    rw [show (x :: A) ++ [z] = x :: (A ++ [z]) from rfl, joinNl_cons_ne (by simp)]
    constructor
    · rw [getLast?_append_ne (by simp),
        show (nlc :: joinNl (A ++ [z])) = [nlc] ++ joinNl (A ++ [z]) from rfl,
        getLast?_append_ne ih2, ih1]
    · simp

theorem jsTrimRight_noop {s : Str} {c : Char} (h : s.getLast? = some c)
    (hw : isWS c = false) : (s.reverse.dropWhile isWS).reverse = s := by
  rcases hrev : s.reverse with _ | ⟨b, rt⟩
  · rw [List.reverse_eq_nil_iff] at hrev
    rw [hrev] at h
    cases h
  · have hb : b = c := by
      have h2 : s.reverse.head? = s.getLast? := List.head?_reverse s
      rw [hrev, h] at h2
      simpa using h2
    rw [List.dropWhile_cons, if_neg (by simp [hb, hw]), ← hrev, List.reverse_reverse]

theorem jsTrim_eq_self {s : Str} {c c' : Char} (hh : s.head? = some c)
    (hc : isWS c = false) (hl : s.getLast? = some c') (hc' : isWS c' = false) :
    jsTrim s = s := by
  unfold jsTrim
  cases s with
  | nil => cases hh
  | cons a t =>
    have ha : a = c := by simpa using hh
    rw [List.dropWhile_cons, if_neg (by simp [ha, hc])]
    exact jsTrimRight_noop hl hc'

/-- Sufficient condition for the validity classifier on a joined line list
headed by `graph TD`: a node-pattern line and an edge-token line among the
rest, and a last line ending in a non-whitespace character. -/
theorem hasRenderable_of_lines (rest : List Str) (nodeLn edgeLn lastLn : Str) (c' : Char)
    (hN : nodeLn ∈ rest) (hE : edgeLn ∈ rest)
    (hNnl : ∀ c ∈ nodeLn, c ≠ nlc) (hEnl : ∀ c ∈ edgeLn, c ≠ nlc)
    (hNt : Gem.nodeLineTest (jsTrim nodeLn) = true)
    (hNe : jsTrim nodeLn ≠ [])
    (hNh : Gem.lowerStartsGraphSp (jsTrim nodeLn) = false)
    (hEt : Gem.edgeLineTest (jsTrim edgeLn) = true)
    (hEe : jsTrim edgeLn ≠ [])
    (hEh : Gem.lowerStartsGraphSp (jsTrim edgeLn) = false)
    (hL : rest.getLast? = some lastLn)
    (hlast : lastLn.getLast? = some c') (hc' : isWS c' = false) :
    Gem.hasRenderableGraphDiagram (joinNl ("graph TD".toList :: rest)) = true := by
  obtain ⟨A, hA⟩ := List.getLast?_eq_some_iff.mp hL
  subst hA
  have hzne : lastLn ≠ [] := by
    intro he
    rw [he] at hlast
    cases hlast
  have hdeq : joinNl ("graph TD".toList :: (A ++ [lastLn])) =
      "graph TD".toList ++ nlc :: joinNl (A ++ [lastLn]) := joinNl_cons_ne (by simp)
  obtain ⟨hgl, hgn⟩ := joinNl_concat_facts A lastLn hzne
  have hdlast : (joinNl ("graph TD".toList :: (A ++ [lastLn]))).getLast? = some c' := by
    rw [hdeq, getLast?_append_ne (by simp),
      show (nlc :: joinNl (A ++ [lastLn])) = [nlc] ++ joinNl (A ++ [lastLn]) from rfl,
      getLast?_append_ne hgn, hgl, hlast]
  have hdhead : (joinNl ("graph TD".toList :: (A ++ [lastLn]))).head? = some 'g' := by
    rw [hdeq]; rfl
  have htrim := jsTrim_eq_self hdhead (by decide) hdlast hc'
  have hdne : joinNl ("graph TD".toList :: (A ++ [lastLn])) ≠ [] := by
    rw [hdeq]; simp
  have hgw : Dia.graphWsTest (joinNl ("graph TD".toList :: (A ++ [lastLn]))) = true := by
    rw [hdeq]; rfl
  have hlines : splitOnNl (joinNl ("graph TD".toList :: (A ++ [lastLn]))) =
      ("graph TD".toList) :: (A ++ [lastLn]).flatMap splitOnNl := by
    rw [splitOnNl_joinNl, splitOnNl_no_nl (x := "graph TD".toList) (by decide)]
    rfl
  have hmemN : jsTrim nodeLn ∈
      Gem.stmtLines (joinNl ("graph TD".toList :: (A ++ [lastLn]))) := by
    unfold Gem.stmtLines
    apply List.mem_filter.mpr
    refine ⟨List.mem_map_of_mem _ ?_, ?_⟩
    · rw [hlines]
      exact List.mem_cons_of_mem _
        (List.mem_flatMap.mpr ⟨nodeLn, hN, by rw [splitOnNl_no_nl hNnl]; simp⟩)
    · simp only [hNh, Bool.not_false, Bool.and_true]
      simpa using hNe
  have hmemE : jsTrim edgeLn ∈
      Gem.stmtLines (joinNl ("graph TD".toList :: (A ++ [lastLn]))) := by
    unfold Gem.stmtLines
    apply List.mem_filter.mpr
    refine ⟨List.mem_map_of_mem _ ?_, ?_⟩
    · rw [hlines]
      exact List.mem_cons_of_mem _
        (List.mem_flatMap.mpr ⟨edgeLn, hE, by rw [splitOnNl_no_nl hEnl]; simp⟩)
    · simp only [hEh, Bool.not_false, Bool.and_true]
      simpa using hEe
  simp only [Gem.hasRenderableGraphDiagram, htrim]
  rw [if_neg hdne, hgw]
  simp only [Bool.not_true, Bool.false_eq_true, if_false, reduceIte]
  rw [if_neg (List.ne_nil_of_mem hmemN)]
  rw [Bool.and_eq_true]
  exact ⟨List.any_eq_true.mpr ⟨_, hmemN, hNt⟩, List.any_eq_true.mpr ⟨_, hmemE, hEt⟩⟩

theorem getLast?_cons_ne {α : Type} {a : α} {l : List α} (h : l ≠ []) :
    (a :: l).getLast? = l.getLast? := by
  rw [show (a :: l) = [a] ++ l from rfl, getLast?_append_ne h]

/-- C1: every diagram produced by either fallback builder — for every screen
list and every component list — is accepted by the validity classifier. -/
theorem fallback_diagrams_renderable :
    (∀ r : Gem.AnalysisResult,
      Gem.hasRenderableGraphDiagram (Gem.buildBusinessFlowFallback r) = true) ∧
    (∀ screens : List Gem.ScreenDescription,
      Gem.hasRenderableGraphDiagram (Gem.buildScreenTransitionFallback screens) = true) := by
  constructor
  · intro r
    simp only [Gem.buildBusinessFlowFallback]
    apply hasRenderable_of_lines _
      ("  Outcome[\"Business outcome delivered\"]".toList)
      ("  Logic --> Data".toList) _ 'e'
    · simp
    · simp
    · decide
    · decide
    · decide
    · decide
    · decide
    · decide
    · decide
    · decide
    · rw [getLast?_append_ne (by simp)]
      rfl
    · rfl
    · decide
  · intro screens
    simp only [Gem.buildScreenTransitionFallback]
    rcases hsc : (if screens.isEmpty then [Gem.fallbackMainScreen] else screens)
        with _ | ⟨l0, ls⟩
    · exfalso
      split at hsc
      · cases hsc
      · rename_i hemp
        rw [hsc] at hemp
        simp at hemp
    · simp only [List.enum_cons, List.map_cons]
      apply hasRenderable_of_lines _
        ("  Start[\"User Entry\"]".toList)
        ("  Start --> Screen0".toList) _ 't'
      · exact List.mem_cons_self _ _
      · exact List.mem_cons_of_mem _ (List.mem_cons_of_mem _
          (List.mem_append.mpr (Or.inr (List.mem_cons_self _ _))))
      · decide
      · decide
      · decide
      · decide
      · decide
      · decide
      · decide
      · decide
      · rw [getLast?_cons_ne (by simp), getLast?_cons_ne (by simp),
          getLast?_append_ne (by simp), getLast?_cons_ne (by simp),
          getLast?_append_ne (by simp)]
        exact List.getLast?_singleton _
      · rw [getLast?_append_ne (by decide)]
        rfl
      · decide

/-- C7 counterexample: the ER and sequence normalizers do not remove semicolons
from ordinary lines, so their canonical form is not semicolon-free. -/
theorem erd_seq_semicolon_retained :
    (Dia.sanitizeErd ("erDiagram\na;b".toList)).contains ';' = true ∧
    (Dia.sanitizeSequence ("sequenceDiagram\nfoo;bar".toList)).contains ';' = true := by
  decide

/-- C7 (amended): the flow-graph normalizer's output never contains a
semicolon, for every input; the ER and sequence normalizers may retain
semicolons present in their input. -/
theorem normalizeGraph_no_semicolon (s : Str) :
    (';' : Char) ∉ Dia.normalizeGraphDiagram s := by
  simp only [Dia.normalizeGraphDiagram]
  split
  · simp
  · intro hmem
    rcases mem_joinNl hmem with h | ⟨x, hx, hcx⟩
    · exact absurd h (by decide)
    · rw [List.mem_cons] at hx
      rcases hx with hx | hx
      · subst hx
        exact ngdGo_hdr_no_semi _ _ _ _ (by decide) hcx
      · rw [List.mem_filter] at hx
        obtain ⟨hx1, _⟩ := hx
        rw [List.mem_map] at hx1
        obtain ⟨y, _, hy⟩ := hx1
        rw [← hy] at hcx
        exact transformLine_no_semi y hcx

/-! ### Claim C3 -/

theorem dropWhile_append_all {p : Char → Bool} {b x : Str} (h : ∀ c ∈ b, p c = true) :
    (b ++ x).dropWhile p = x.dropWhile p := by
  induction b with
  | nil => rfl
  | cons c bt ih =>
    rw [List.cons_append, List.dropWhile_cons, if_pos (by simpa using h c (by simp))]
    exact ih fun d hd => h d (by simp [hd])

theorem isOpenBr_not_ws {br : Char} (h : Gem.isOpenBr br = true) : isWS br = false := by
  unfold Gem.isOpenBr at h
  simp only [Bool.or_eq_true, decide_eq_true_eq] at h
  rcases h with (rfl | rfl) | rfl <;> decide

theorem nodeLineTest_iff (l : Str) : Gem.nodeLineTest l = true ↔ specNodeProp l := by
  constructor
  · intro h
    induction l with
    | nil => simp [Gem.nodeLineTest] at h
    | cons c rest ih =>
      simp only [Gem.nodeLineTest, Bool.or_eq_true, Bool.and_eq_true] at h
      rcases h with ⟨hw, hb⟩ | h
      · rcases hdrop : rest.dropWhile isWS with _ | ⟨d, tail⟩
        · rw [hdrop] at hb; simp at hb
        · rw [hdrop] at hb
          simp only [List.head?_cons, Option.some.injEq] at hb
          refine ⟨[], rest.takeWhile isWS, tail, c, d, ?_, hw, ?_, ?_⟩
          · have hsplit : rest = rest.takeWhile isWS ++ rest.dropWhile isWS :=
              (List.takeWhile_append_dropWhile isWS rest).symm
            rw [hdrop] at hsplit
            rw [List.nil_append, List.cons_append, ← hsplit]
          · exact fun x hx => List.mem_takeWhile_imp hx
          · simpa using hb
      · obtain ⟨a, b, c2, w, br, heq, hw, hb, hbr⟩ := ih h
        exact ⟨c :: a, b, c2, w, br, by rw [heq]; rfl, hw, hb, hbr⟩
  · rintro ⟨a, b, c2, w, br, heq, hw, hb, hbr⟩
    subst heq
    induction a with
    | nil =>
      simp only [List.nil_append, Gem.nodeLineTest, Bool.or_eq_true, Bool.and_eq_true]
      left
      refine ⟨hw, ?_⟩
      have hd : List.dropWhile isWS (b ++ br :: c2) = br :: c2 := by
        rw [dropWhile_append_all hb, List.dropWhile_cons,
          if_neg (by simp [isOpenBr_not_ws hbr])]
      show (match (List.dropWhile isWS (b ++ br :: c2)).head? with
            | some d => Gem.isOpenBr d
            | none => false) = true
      rw [hd]
      exact hbr
    | cons x a2 ih =>
      simp only [List.cons_append, Gem.nodeLineTest, Bool.or_eq_true]
      right
      simpa using ih

theorem hasSub_iff (pat l : Str) : hasSub pat l = true ↔ ∃ a b, l = a ++ pat ++ b := by
  constructor
  · intro h
    induction l with
    | nil =>
      simp only [hasSub] at h
      obtain ⟨t, ht⟩ := leadsWith_ex.mp h
      exact ⟨[], t, ht⟩
    | cons c rest ih =>
      simp only [hasSub, Bool.or_eq_true] at h
      rcases h with h | h
      · obtain ⟨t, ht⟩ := leadsWith_ex.mp h
        exact ⟨[], t, ht⟩
      · obtain ⟨a, b, hab⟩ := ih h
        exact ⟨c :: a, b, by rw [hab]; rfl⟩
  · rintro ⟨a, b, heq⟩
    subst heq
    induction a with
    | nil =>
      cases hpb : pat ++ b with
      | nil =>
        have hp : pat = [] := by
          rcases List.append_eq_nil.mp hpb with ⟨h1, _⟩
          exact h1
        rw [List.nil_append, hpb]
        simp [hasSub, hp, leadsWith]
      | cons x xs =>
        rw [List.nil_append, hpb]
        simp only [hasSub, Bool.or_eq_true]
        left
        rw [← hpb]
        exact leadsWith_ex.mpr ⟨b, rfl⟩
    | cons x a2 ih =>
      simp only [List.cons_append, hasSub, Bool.or_eq_true]
      right
      exact ih

theorem edgeLineTest_iff (l : Str) : Gem.edgeLineTest l = true ↔ specEdgeProp l := by
  unfold Gem.edgeLineTest specEdgeProp edgeTokens
  simp only [Bool.or_eq_true, hasSub_iff]
  constructor
  · rintro (((((h | h) | h) | h) | h) | h)
    · exact ⟨"-->".toList, by simp, h⟩
    · exact ⟨"---".toList, by simp, h⟩
    · exact ⟨"==>".toList, by simp, h⟩
    · exact ⟨"=>".toList, by simp, h⟩
    · exact ⟨"-.->".toList, by simp, h⟩
    · exact ⟨"-+->".toList, by simp, h⟩
  · rintro ⟨tok, htok, h⟩
    simp only [List.map_cons, List.map_nil, List.mem_cons, List.not_mem_nil,
      or_false] at htok
    rcases htok with e | e | e | e | e | e <;> subst e <;> simp_all

/-- C3 counterexample: the classifier accepts `graph TD` with node line `A [x]`
and edge line `A-->B`, although no statement line has an identifier immediately
followed by an opening bracket — the node regex allows whitespace before the
bracket, which the claim's wording forbids. -/
theorem renderable_immediate_node_counterexample :
    Gem.hasRenderableGraphDiagram c3Input = true ∧
    (Gem.stmtLines (jsTrim c3Input)).any immediateNodeTest = false := by decide

/-- C3 (amended): the classifier returns true exactly under the claim's
conditions, with the node-bracket pattern allowing optional whitespace between
the identifier and the opening bracket. -/
theorem hasRenderable_iff_spec (d : Str) :
    Gem.hasRenderableGraphDiagram d = true ↔ specRenderable d := by
  unfold Gem.hasRenderableGraphDiagram specRenderable
  by_cases h1 : jsTrim d = []
  · simp [h1]
  · by_cases h2 : Dia.graphWsTest (jsTrim d) = true
    · by_cases h3 : Gem.stmtLines (jsTrim d) = []
      · simp [h1, h2, h3]
      · simp only [h1, h2, h3, if_false, Bool.not_true, Bool.false_eq_true, reduceIte,
          Bool.and_eq_true, List.any_eq_true, ne_eq, not_false_eq_true, true_and]
        constructor
        · rintro ⟨⟨x, hx, hxt⟩, y, hy, hyt⟩
          exact ⟨⟨x, hx, (nodeLineTest_iff x).mp hxt⟩, y, hy, (edgeLineTest_iff y).mp hyt⟩
        · rintro ⟨⟨x, hx, hxt⟩, y, hy, hyt⟩
          exact ⟨⟨x, hx, (nodeLineTest_iff x).mpr hxt⟩, y, hy, (edgeLineTest_iff y).mpr hyt⟩
    · have h2f : Dia.graphWsTest (jsTrim d) = false := by simpa using h2
      simp [h1, h2f]

/-! ### Claim C9 -/

/-- C9: the synchronized description list is the diagram-extracted labels, in
order, each resolved to a case-insensitively matching existing description or
an auto-generated placeholder, followed by the descriptions absent from the
diagram in their original order; its length is at least the number of
diagram-extracted labels; and the `[Login, Home]` versus `[Home]` example
produces `[placeholder Login, existing Home]`. -/
theorem ensure_screens_spec (r : Gem.AnalysisResult) :
    ((Gem.ensureScreenDescriptionsMatchDiagram r).screenDescriptions =
      (Gem.extractScreenNamesFromDiagram r.screenTransitionDiagram).map
        (fun nm =>
          match Gem.lookupLast r.screenDescriptions (Gem.screenKey nm) with
          | some d => d
          | none => Gem.createPlaceholderScreen nm) ++
      r.screenDescriptions.filter (fun d =>
        !(Gem.extractScreenNamesFromDiagram r.screenTransitionDiagram).any
          (fun l => Gem.screenKey l = Gem.screenKey d.screenName))) ∧
    (Gem.extractScreenNamesFromDiagram r.screenTransitionDiagram).length ≤
      (Gem.ensureScreenDescriptionsMatchDiagram r).screenDescriptions.length ∧
    (Gem.ensureScreenDescriptionsMatchDiagram c9Result).screenDescriptions =
      [Gem.createPlaceholderScreen ("Login".toList), homeDesc] := by
  have hmap : ∀ (ds : List Gem.ScreenDescription) (nm : Str),
      (Gem.lookupLast ds (Gem.screenKey nm)).getD (Gem.createPlaceholderScreen nm) =
        (match Gem.lookupLast ds (Gem.screenKey nm) with
         | some d => d
         | none => Gem.createPlaceholderScreen nm) := by
    intro ds nm
    cases Gem.lookupLast ds (Gem.screenKey nm) <;> rfl
  refine ⟨?_, ?_, by decide⟩
  · by_cases hempty : Gem.extractScreenNamesFromDiagram r.screenTransitionDiagram = []
    · simp [Gem.ensureScreenDescriptionsMatchDiagram, hempty]
    · simp only [Gem.ensureScreenDescriptionsMatchDiagram, if_neg hempty]
      congr 1
      exact List.map_congr_left fun nm _ => hmap r.screenDescriptions nm
  · by_cases hempty : Gem.extractScreenNamesFromDiagram r.screenTransitionDiagram = []
    · simp [Gem.ensureScreenDescriptionsMatchDiagram, hempty]
    · simp only [Gem.ensureScreenDescriptionsMatchDiagram, if_neg hempty,
        List.length_append, List.length_map]
      omega

/-- C4 witness: the header theorem applied to a lowercase `graph lr` input. -/
theorem sanitize_graph_header_witness :
    (firstLine (Dia.sanitizeMermaidCode ("graph lr\nA-->B".toList)) = ("graph TD".toList) ∨
     firstLine (Dia.sanitizeMermaidCode ("graph lr\nA-->B".toList)) = ("graph LR".toList)) ∧
    (firstLine (Dia.sanitizeMermaidCode ("graph lr\nA-->B".toList)) = ("graph LR".toList) ↔
      ∃ d, capturedDirection ("graph lr\nA-->B".toList) = some d ∧ Dia.dirIsLR d = true) :=
  sanitize_graph_header ("graph lr\nA-->B".toList) (by decide)
